import Mathlib

/-!
Shallow embedding of the HoursTracker application (HoursTrackerApp.jsx) in Lean 4.

The app is a personal hours/earnings tracker.  Its computation core consists of
derived values over a list of work entries, a wishlist, and two scalar settings
(hourly wage, savings percent), plus flat CRUD mutations and a CSV export.

JavaScript numbers are embedded as rationals (ℚ); `NaN` and the dynamic typing
of values read back from storage are embedded by the small `JVal` type below,
used where the code's behaviour on non-numeric data matters.  Dates are the
ISO-8601 strings the app stores; `new Date(iso)` is embedded as a
days-since-epoch computation on the proleptic Gregorian calendar, which is what
the JavaScript engine performs for day-precision ISO strings.
-/

namespace HoursTracker

/-! ## JavaScript value model

`JVal` models the values a field read back from storage can hold: a number,
`NaN`, `undefined`, or a string.  `Option ℚ` models a JavaScript number that may
be `NaN` (`none` = `NaN`). -/

/-- A dynamically typed JavaScript value, as far as the tracker inspects one. -/
inductive JVal where
  | num (q : ℚ)
  | nan
  | undef
  | str (s : String)
deriving DecidableEq

/-- JavaScript truthiness test, restricted to the values of `JVal`:
`0`, `NaN`, `undefined` and `""` are falsy. -/
def JVal.falsy : JVal → Bool
  | .num q => q = 0
  | .nan => true
  | .undef => true
  | .str s => s = ""

/-- Embeds the idiom `v || 0`: a falsy value is replaced by the number `0`. -/
def JVal.orZero (v : JVal) : JVal := if v.falsy then .num 0 else v

/-- Is `c` one of the whitespace characters `Number()` strips? -/
def isWS (c : Char) : Bool := c = ' ' || c.toNat = 9 || c.toNat = 10 || c.toNat = 13

/-- Strip leading and trailing whitespace from a character list. -/
def trimChars (cs : List Char) : List Char :=
  ((cs.dropWhile isWS).reverse.dropWhile isWS).reverse

/-- Numeric value of a digit string, most significant digit first.
Characters are mapped through `c.toNat - 48`. -/
def digitsToNat (cs : List Char) : ℕ :=
  cs.foldl (fun n c => n * 10 + (c.toNat - 48)) 0

/-- Parse an unsigned decimal numeral: a digit run, optionally followed by a
point and a second digit run; at least one of the two runs must be nonempty
(`Number("1.") = 1`, `Number(".5") = 0.5`, `Number(".") = NaN`). -/
def parseUnsigned (cs : List Char) : Option ℚ :=
  match cs.dropWhile Char.isDigit with
  | [] =>
    if cs.takeWhile Char.isDigit = [] then none
    else some (digitsToNat (cs.takeWhile Char.isDigit))
  | c :: fracPart =>
    if c = '.' ∧ fracPart.all Char.isDigit ∧ (cs.takeWhile Char.isDigit ≠ [] ∨ fracPart ≠ []) then
      some ((digitsToNat (cs.takeWhile Char.isDigit) : ℚ) +
        (digitsToNat fracPart : ℚ) / 10 ^ fracPart.length)
    else none

/-- Embeds the builtin `Number(string)` on the fragment the app feeds it:
whitespace is trimmed, the empty string is `0`, and an optionally negated
decimal numeral is parsed; anything else is `NaN` (`none`). -/
def jsStrToNumber (s : String) : Option ℚ :=
  match trimChars s.data with
  | [] => some 0
  | c :: rest => if c = '-' then (parseUnsigned rest).map Neg.neg else parseUnsigned (c :: rest)

/-- Embeds `Number(v)` on a `JVal` (`none` = `NaN`). -/
def JVal.toNumber : JVal → Option ℚ
  | .num q => some q
  | .nan => none
  | .undef => none
  | .str s => jsStrToNumber s

/-- NaN-propagating addition of JavaScript numbers. -/
def qAdd : Option ℚ → Option ℚ → Option ℚ
  | some a, some b => some (a + b)
  | _, _ => none

/-! ## Data model -/

/-- A raw stored entry, whose `hours` field may hold any JavaScript value
(entries read back from local storage are not re-validated). -/
structure RawEntry where
  id : String
  date : String
  hours : JVal
  note : String
deriving DecidableEq

/-- A work entry as created by the app itself: `addEntry` stores
`{ id, date, hours: Number(hours), note }` with `hours` validated to be a
non-negative number. -/
structure Entry where
  id : String
  date : String
  hours : ℚ
  note : String
deriving DecidableEq

/-- View an app-created entry as a raw stored entry. -/
def toRaw (e : Entry) : RawEntry := ⟨e.id, e.date, .num e.hours, e.note⟩

/-- A wishlist item: `{ id, name, price }`. -/
structure WishItem where
  id : String
  name : String
  price : ℚ
deriving DecidableEq

/-- A wishlist item annotated with its time-to-afford projection,
`{ ...item, weeksNeeded }`. -/
structure WishProj where
  id : String
  name : String
  price : ℚ
  weeksNeeded : ℤ
deriving DecidableEq

/-! ## String comparison

JavaScript compares strings (and `localeCompare` compares the app's plain
ASCII date strings) lexicographically by code unit; this is `lexLe` below. -/

/-- Lexicographic comparison of character lists by code point. -/
def lexLe : List Char → List Char → Bool
  | [], _ => true
  | _ :: _, [] => false
  | a :: as, b :: bs =>
    if a < b then true else if b < a then false else lexLe as bs

/-- Lexicographic order on strings, as the engine compares them. -/
def strLe (a b : String) : Prop := lexLe a.data b.data = true

instance : DecidableRel strLe := fun a b => inferInstanceAs (Decidable (lexLe a.data b.data = true))

/-! ## Derived aggregator -/

/-- Embeds `entries.reduce((s, e) => s + Number(e.hours || 0), 0)` at the
JavaScript value level (line 68 of the source): NaN propagates through the
running sum. -/
def totalHoursJS (entries : List RawEntry) : Option ℚ :=
  entries.foldl (fun s e => qAdd s (JVal.toNumber e.hours.orZero)) (some 0)

/-- `totalHours` on app-created entries, where every `hours` is a number and
`Number(e.hours || 0) = e.hours` (for `hours = 0` both sides are `0`). -/
def totalHours (entries : List Entry) : ℚ :=
  entries.foldl (fun s e => s + e.hours) 0

/-- `totalEarnings = totalHours * Number(wage || 0)`; for a numeric wage the
coercion is the identity. -/
def totalEarnings (entries : List Entry) (wage : ℚ) : ℚ :=
  totalHours entries * wage

/-- `recommendedSavings = totalEarnings * (Number(savePct || 0) / 100)`. -/
def recommendedSavings (entries : List Entry) (wage savePct : ℚ) : ℚ :=
  totalEarnings entries wage * (savePct / 100)

/-- `spendable = totalEarnings - recommendedSavings`. -/
def spendable (entries : List Entry) (wage savePct : ℚ) : ℚ :=
  totalEarnings entries wage - recommendedSavings entries wage savePct

/-- `e.date.slice(0, 7)`: the year-month key of an entry. -/
def monthKey (e : Entry) : String := e.date.take 7

/-- `Math.round(x * 100) / 100`: round to 2 decimal places, half toward
positive infinity (`Math.round(x) = ⌊x + 1/2⌋` on finite numbers). -/
def round2 (q : ℚ) : ℚ := ((⌊q * 100 + 1 / 2⌋ : ℤ) : ℚ) / 100

/-- One step of `map[m] = (map[m] || 0) + v` on a JavaScript object embedded as
an association list in key insertion order: an existing key is updated in
place, a new key is appended. -/
def mapAdd (m : List (String × ℚ)) (k : String) (v : ℚ) : List (String × ℚ) :=
  if m.any (fun p => p.1 = k) then
    m.map (fun p => if p.1 = k then (p.1, p.2 + v) else p)
  else m ++ [(k, v)]

/-- The accumulation loop of `chartData`: for each entry add
`Number(e.hours || 0) * Number(wage || 0)` under its month key. -/
def monthMap (entries : List Entry) (wage : ℚ) : List (String × ℚ) :=
  entries.foldl (fun m e => mapAdd m (monthKey e) (e.hours * wage)) []

/-- Lookup in the embedded object (`map[k]`; total, defaulting to 0 — the code
only looks up keys that are present). -/
def alookup (m : List (String × ℚ)) (k : String) : ℚ :=
  ((m.find? (fun p => p.1 = k)).map Prod.snd).getD 0

/-- `chartData`: `Object.keys(map).sort().map(k => ({ month: k, earnings:
Math.round(map[k] * 100) / 100 }))`.  `insertionSort` stands for the engine's
sort, which on the duplicate-free key list is the unique ascending ordering. -/
def chartData (entries : List Entry) (wage : ℚ) : List (String × ℚ) :=
  (List.insertionSort strLe ((monthMap entries wage).map Prod.fst)).map
    (fun k => (k, round2 (alookup (monthMap entries wage) k)))

/-- The monthly series as the specification words it: the distinct month keys
in ascending order, each paired with the rounded sum of `hours * wage` over the
entries of that month. -/
def chartDataSpec (entries : List Entry) (wage : ℚ) : List (String × ℚ) :=
  (List.insertionSort strLe (entries.map monthKey).dedup).map
    (fun k => (k, round2 (((entries.filter (fun e => monthKey e = k)).map
      (fun e => e.hours * wage)).sum)))

/-- Ordering of entries by date string, as `(a, b) => a.date.localeCompare(b.date)`
compares them (fixed-width ISO dates compare lexicographically). -/
def entryLe (a b : Entry) : Prop := strLe a.date b.date

instance : DecidableRel entryLe := fun a b => inferInstanceAs (Decidable (strLe a.date b.date))

/-- `[...entries].sort((a, b) => a.date.localeCompare(b.date))`; insertion sort
is stable, like the engine's sort. -/
def sortEntries (l : List Entry) : List Entry := List.insertionSort entryLe l

/-- Numeric value of `cs.foldl`-parsed digit runs in a date string: position
`i` of length `n`.  Helper for `dateToDays`. -/
def dateField (s : String) (i n : ℕ) : ℕ := digitsToNat ((s.data.drop i).take n)

/-- Embeds `new Date(isoDate)` as the number of days since 1970-01-01 on the
proleptic Gregorian calendar (the civil-from-date computation the engine
performs for day-precision ISO strings; its UTC time value is this number
times 86400000 ms). -/
def dateToDays (s : String) : ℤ :=
  let y : ℤ := dateField s 0 4
  let m : ℤ := dateField s 5 2
  let d : ℤ := dateField s 8 2
  let y2 : ℤ := if m ≤ 2 then y - 1 else y
  let era : ℤ := (if 0 ≤ y2 then y2 else y2 - 399) / 400
  let yoe : ℤ := y2 - era * 400
  let doy : ℤ := (153 * (if 2 < m then m - 3 else m + 9) + 2) / 5 + d - 1
  let doe : ℤ := yoe * 365 + yoe / 4 - yoe / 100 + doy
  era * 146097 + doe - 719468

/-- `weeklyAverage`: 0 for no entries; otherwise sort by date, take the first
and last dates, `weeks = Math.max(1, Math.ceil((last - first) / (1000*60*60*24*7)))`
(the date difference in milliseconds is the day difference times 86400000),
and divide `totalEarnings` by `weeks`. -/
def weeklyAverage (entries : List Entry) (wage : ℚ) : ℚ :=
  if entries = [] then 0
  else
    match sortEntries entries with
    | [] => 0
    | e :: rest =>
      let firstDay := dateToDays e.date
      let lastDay := dateToDays (List.getLastD rest e).date
      let weeks : ℤ := max 1 ⌈(((lastDay - firstDay : ℤ) : ℚ) * 86400000) / 604800000⌉
      totalEarnings entries wage / (weeks : ℚ)

/-- The annotation step of `wishlistWithTime` for one item:
`needed = item.price - spendable;
 weeksNeeded = needed > 0 && weeklyAverage > 0 ? Math.ceil(needed / weeklyAverage) : 0`. -/
def annotateItem (sp wa : ℚ) (item : WishItem) : WishProj :=
  let needed := item.price - sp
  ⟨item.id, item.name, item.price,
    if 0 < needed ∧ 0 < wa then ⌈needed / wa⌉ else 0⟩

/-- `wishlistWithTime = wishlist.map(item => ({ ...item, weeksNeeded }))`. -/
def wishlistWithTime (wishlist : List WishItem) (sp wa : ℚ) : List WishProj :=
  wishlist.map (annotateItem sp wa)

/-- `affordableItems = wishlist.filter(w => w.price <= spendable)`. -/
def affordableItems (wishlist : List WishItem) (sp : ℚ) : List WishItem :=
  wishlist.filter (fun w => w.price ≤ sp)

/-! ## Mutations -/

/-- The validation failures the input boundary surfaces (via `alert`). -/
inductive ValidationError where
  | emptyDate
  | invalidHours
  | blankName
  | invalidPrice
deriving DecidableEq

/-- `addEntry`: reject when the date is empty or the hours value is `NaN` or
negative, leaving the store untouched; otherwise append
`{ id: uid(), date, hours: Number(hours), note }` and sort by date ascending.
The hours argument is the form value coerced by `Number` (`none` = `NaN`);
the fresh id is passed in, standing for the `uid()` call. -/
def addEntry (st : List Entry) (date : String) (hours : Option ℚ) (note : String)
    (newId : String) : List Entry × Option ValidationError :=
  if date = "" then (st, some .emptyDate)
  else
    match hours with
    | none => (st, some .invalidHours)
    | some h =>
      if h < 0 then (st, some .invalidHours)
      else (sortEntries (st ++ [⟨newId, date, h, note⟩]), none)

/-- `removeEntry(id)`: `s.filter(e => e.id !== id)`. -/
def removeEntry (st : List Entry) (id : String) : List Entry :=
  st.filter (fun e => e.id ≠ id)

/-- `updateEntryField(id, field, value)`: map over the entries; a non-matching
id is returned unchanged; `"hours"` parses the value and ignores `NaN` or
negative results; `"note"` replaces unconditionally; any other field name
leaves the entry unchanged. -/
def updateEntryField (st : List Entry) (id field value : String) : List Entry :=
  st.map fun e =>
    if e.id ≠ id then e
    else if field = "hours" then
      match jsStrToNumber value with
      | none => e
      | some n => if n < 0 then e else { e with hours := n }
    else if field = "note" then { e with note := value }
    else e

/-- `addWishlist`: reject a blank (all-whitespace) name or a `NaN`/negative
price; otherwise append `{ id: uid(), name: itemName.trim(), price: Number(price) }`. -/
def addWishlist (wl : List WishItem) (name : String) (price : Option ℚ)
    (newId : String) : List WishItem × Option ValidationError :=
  if name.trim = "" then (wl, some .blankName)
  else
    match price with
    | none => (wl, some .invalidPrice)
    | some p =>
      if p < 0 then (wl, some .invalidPrice)
      else (wl ++ [⟨newId, name.trim, p⟩], none)

/-- `removeWishlist(id)`: `s.filter(w => w.id !== id)`. -/
def removeWishlist (wl : List WishItem) (id : String) : List WishItem :=
  wl.filter (fun w => w.id ≠ id)

/-! ## CSV export

`exportCSV` produces the text
`["date,hours,note", ...entries.map(r => date + "," + hours + "," + quoted-escaped-note)].join("\n")`.
The hours number is serialized the way the engine prints the decimal numbers
the form accepts (shortest exact decimal expansion); the note is always
wrapped in double quotes with embedded double quotes doubled
(`.replace(/"/g, '""')`). -/

/-- The double-quote character. -/
def dq : Char := Char.ofNat 34

/-- The newline character. -/
def nl : Char := Char.ofNat 10

/-- `note.replace(/"/g, '""')`: double every embedded double quote. -/
def escapeChars : List Char → List Char
  | [] => []
  | c :: cs => if c = dq then dq :: dq :: escapeChars cs else c :: escapeChars cs

/-- The character of a decimal digit. -/
def digitChar (d : ℕ) : Char :=
  if d = 0 then '0' else if d = 1 then '1' else if d = 2 then '2'
  else if d = 3 then '3' else if d = 4 then '4' else if d = 5 then '5'
  else if d = 6 then '6' else if d = 7 then '7' else if d = 8 then '8'
  else if d = 9 then '9' else '*'

/-- Digit characters of a positive natural, most significant first; the first
argument is recursion fuel (any bound on the number works). -/
def natToCharsAux : ℕ → ℕ → List Char
  | 0, _ => []
  | fuel + 1, n => if n = 0 then [] else natToCharsAux fuel (n / 10) ++ [digitChar (n % 10)]

/-- Digit characters of a natural number, `0` printed as `"0"`. -/
def natToChars (n : ℕ) : List Char := if n = 0 then ['0'] else natToCharsAux n n

/-- Left-pad a digit run with zeros to length `k`. -/
def padZeros (k : ℕ) (cs : List Char) : List Char :=
  List.replicate (k - cs.length) '0' ++ cs

/-- The least number of decimal fraction digits with which `q` prints exactly,
searched up to 20 (every number the form produces has such an expansion). -/
def decExponent (q : ℚ) : ℕ :=
  ((List.range 21).find? (fun k => (q * 10 ^ k).den = 1)).getD 20

/-- Decimal character representation of a rational with finite decimal
expansion, as the engine prints the number (`${r.hours}`): optional minus
sign, integer digits, and — when there are fraction digits — a point and the
fraction digits without trailing zeros. -/
def decChars (q : ℚ) : List Char :=
  (if (q * 10 ^ decExponent q).num < 0 then ['-'] else []) ++
  (if decExponent q = 0 then natToChars (q * 10 ^ decExponent q).num.natAbs
   else natToChars ((q * 10 ^ decExponent q).num.natAbs / 10 ^ decExponent q) ++
     '.' :: padZeros (decExponent q) (natToChars ((q * 10 ^ decExponent q).num.natAbs %
       10 ^ decExponent q)))

/-- The serialized hours number. -/
def ratToDecimal (q : ℚ) : String := String.mk (decChars q)

/-- The characters of one CSV data row:
`` `${r.date},${r.hours},"${(r.note || "").replace(/"/g, '""')}"` ``. -/
def rowChars (e : Entry) : List Char :=
  e.date.data ++ ',' :: decChars e.hours ++ ',' :: dq :: (escapeChars e.note.data ++ [dq])

/-- One CSV data row as a string. -/
def csvRow (e : Entry) : String := String.mk (rowChars e)

/-- The tail of `rows.join("\n")`: a newline before each further row. -/
def sepTail : List String → List Char
  | [] => []
  | r :: rs => nl :: r.data ++ sepTail rs

/-- `rows.join("\n")` at the character level. -/
def joinNL : List String → List Char
  | [] => []
  | r :: rs => r.data ++ sepTail rs

/-- The exported CSV text: header row, then one row per entry in store order. -/
def exportCSV (entries : List Entry) : String :=
  String.mk (joinNL ("date,hours,note" :: entries.map csvRow))

/-- A standard CSV reader (RFC-4180 style), the parser the round-trip property
of the specification reads the produced text back with.  State: remaining
input, whether inside a quoted section, the current field's characters, the
current record's finished fields, the finished records. -/
def csvParseAux : List Char → Bool → List Char → List String → List (List String) →
    List (List String)
  | [], _, f, r, acc => acc ++ [r ++ [String.mk f]]
  | c :: cs, true, f, r, acc =>
    if c = dq then
      match cs with
      | c2 :: cs2 =>
        if c2 = dq then csvParseAux cs2 true (f ++ [dq]) r acc
        else csvParseAux (c2 :: cs2) false f r acc
      | [] => acc ++ [r ++ [String.mk f]]
    else csvParseAux cs true (f ++ [c]) r acc
  | c :: cs, false, f, r, acc =>
    if c = dq then csvParseAux cs true f r acc
    else if c = ',' then csvParseAux cs false [] (r ++ [String.mk f]) acc
    else if c = nl then csvParseAux cs false [] [] (acc ++ [r ++ [String.mk f]])
    else csvParseAux cs false (f ++ [c]) r acc

/-- Parse a CSV text into its records of fields. -/
def parseCSV (s : String) : List (List String) := csvParseAux s.data false [] [] []

/-- A character that needs no quoting in a CSV field: not a double quote, not
a comma, not a newline.  ISO dates consist of such characters. -/
def CleanChar (c : Char) : Prop := c ≠ dq ∧ c ≠ ',' ∧ c ≠ nl

instance : DecidablePred CleanChar := fun _ => inferInstanceAs (Decidable (_ ∧ _))

/-- A string of clean characters. -/
def CleanStr (s : String) : Prop := ∀ c ∈ s.data, CleanChar c

instance : DecidablePred CleanStr := fun s => inferInstanceAs (Decidable (∀ c ∈ s.data, CleanChar c))

/-- A rational with a finite decimal expansion of at most 20 fraction digits;
every number a JavaScript form field can hold is of this shape (binary
fractions are decimal fractions). -/
def FiniteDec (q : ℚ) : Prop := (q * 10 ^ 20).den = 1

instance : DecidablePred FiniteDec := fun _ => by unfold FiniteDec; infer_instance

/-- A note containing an embedded double quote, for exercising the escaping. -/
def quoteNote : String := String.mk ['s', 'a', 'y', ' ', dq, 'h', 'i', dq]

/-- A concrete store exercising the CSV round trip: a plain note and a note
with embedded double quotes, integer and fractional hours. -/
def csvWitnessEntries : List Entry :=
  [⟨"id1", "2024-01-05", 2, "plain"⟩, ⟨"id2", "2024-01-20", 29 / 4, quoteNote⟩]

/-! ## The mutable session state and its transition system -/

/-- The top-level mutable state: the two stores and the two settings. -/
structure AppState where
  entries : List Entry
  wishlist : List WishItem
  wage : ℚ
  savePct : ℚ
deriving DecidableEq

/-- One user action.  The `id` of the add actions stands for the string
`uid()` returned for that action (`Math.random().toString(36).slice(2, 9)`,
an unconstrained 7-character string). -/
inductive Op where
  | opAddEntry (id date : String) (hours : Option ℚ) (note : String)
  | opRemoveEntry (id : String)
  | opUpdateEntry (id field value : String)
  | opAddWish (id name : String) (price : Option ℚ)
  | opRemoveWish (id : String)
  | opClearAll (confirmed : Bool)
deriving DecidableEq

/-- The state transition of one user action.  `clearAll` resets everything to
the defaults only when the confirmation dialog was accepted. -/
def step (s : AppState) : Op → AppState
  | .opAddEntry id date hours note => { s with entries := (addEntry s.entries date hours note id).1 }
  | .opRemoveEntry id => { s with entries := removeEntry s.entries id }
  | .opUpdateEntry id field value => { s with entries := updateEntryField s.entries id field value }
  | .opAddWish id name price => { s with wishlist := (addWishlist s.wishlist name price id).1 }
  | .opRemoveWish id => { s with wishlist := removeWishlist s.wishlist id }
  | .opClearAll c => if c then ⟨[], [], 15, 20⟩ else s

/-- Run a sequence of user actions. -/
def run (s : AppState) (ops : List Op) : AppState := ops.foldl step s

/-- The ids of the entry collection. -/
def entryIds (st : List Entry) : List String := st.map Entry.id

/-- The ids of the wishlist collection. -/
def wishIds (wl : List WishItem) : List String := wl.map WishItem.id

/-- The id supplied to each add action is fresh for the collection it joins at
the moment the action runs.  `uid()` does not guarantee this: it draws 7
random base-36 characters with no collision check. -/
def FreshIds : AppState → List Op → Prop
  | _, [] => True
  | s, op :: ops =>
    (match op with
     | .opAddEntry id _ _ _ => id ∉ entryIds s.entries
     | .opAddWish id _ _ => id ∉ wishIds s.wishlist
     | _ => True) ∧ FreshIds (step s op) ops

/-! # Theorems -/

/-! ## The lexicographic order is a total order -/

lemma lexLe_refl : ∀ x : List Char, lexLe x x = true := by
  intro x
  induction x with
  | nil => rfl
  | cons a as ih => simp [lexLe, lt_irrefl, ih]

lemma lexLe_total : ∀ x y : List Char, lexLe x y = true ∨ lexLe y x = true := by
  intro x
  induction x with
  | nil => intro y; left; rfl
  | cons a as ih =>
    intro y
    cases y with
    | nil => right; rfl
    | cons b bs =>
      rcases lt_trichotomy a b with h | h | h
      · left; simp [lexLe, h]
      · subst h
        rcases ih bs with h2 | h2
        · left; simp [lexLe, lt_irrefl, h2]
        · right; simp [lexLe, lt_irrefl, h2]
      · right; simp [lexLe, h]

lemma lexLe_trans : ∀ x y z : List Char,
    lexLe x y = true → lexLe y z = true → lexLe x z = true := by
  intro x
  induction x with
  | nil => intro y z _ _; rfl
  | cons a as ih =>
    intro y z hxy hyz
    cases y with
    | nil => simp [lexLe] at hxy
    | cons b bs =>
      cases z with
      | nil => simp [lexLe] at hyz
      | cons c cs =>
        rcases lt_trichotomy a c with hac | hac | hac
        · simp [lexLe, hac]
        · subst hac
          simp only [lexLe, lt_irrefl, if_false]
          rcases lt_trichotomy a b with hab | hab | hab
          · rw [lexLe, if_neg (lt_asymm hab), if_pos hab] at hyz
            exact absurd hyz (by simp)
          · subst hab
            simp only [lexLe, lt_irrefl, if_false] at hxy hyz
            exact ih bs cs hxy hyz
          · rw [lexLe, if_neg (lt_asymm hab), if_pos hab] at hxy
            exact absurd hxy (by simp)
        · exfalso
          rcases lt_trichotomy a b with hab | hab | hab
          · rcases lt_trichotomy b c with hbc | hbc | hbc
            · exact lt_asymm hac (lt_trans hab hbc)
            · subst hbc; exact lt_asymm hab hac
            · rw [lexLe, if_neg (lt_asymm hbc), if_pos hbc] at hyz
              exact absurd hyz (by simp)
          · subst hab
            rw [lexLe, if_neg (lt_asymm hac), if_pos hac] at hyz
            exact absurd hyz (by simp)
          · rw [lexLe, if_neg (lt_asymm hab), if_pos hab] at hxy
            exact absurd hxy (by simp)

lemma lexLe_antisymm : ∀ x y : List Char,
    lexLe x y = true → lexLe y x = true → x = y := by
  intro x
  induction x with
  | nil =>
    intro y hxy hyx
    cases y with
    | nil => rfl
    | cons b bs => simp [lexLe] at hyx
  | cons a as ih =>
    intro y hxy hyx
    cases y with
    | nil => simp [lexLe] at hxy
    | cons b bs =>
      rcases lt_trichotomy a b with h | h | h
      · rw [lexLe, if_neg (lt_asymm h), if_pos h] at hyx
        exact absurd hyx (by simp)
      · subst h
        simp only [lexLe, lt_irrefl, if_false] at hxy hyx
        rw [ih bs hxy hyx]
      · rw [lexLe, if_neg (lt_asymm h), if_pos h] at hxy
        exact absurd hxy (by simp)

instance : IsTotal String strLe := ⟨fun a b => lexLe_total a.data b.data⟩

instance : IsTrans String strLe := ⟨fun a b c => lexLe_trans a.data b.data c.data⟩

instance : IsRefl String strLe := ⟨fun a => lexLe_refl a.data⟩

instance : IsAntisymm String strLe :=
  ⟨fun a b h1 h2 => by
    cases a
    cases b
    exact congrArg String.mk (lexLe_antisymm _ _ h1 h2)⟩

instance : IsTotal Entry entryLe := ⟨fun a b => lexLe_total a.date.data b.date.data⟩

instance : IsTrans Entry entryLe := ⟨fun a b c => lexLe_trans a.date.data b.date.data c.date.data⟩

/-! ## C1: the summary scalars -/

/-- Claim C1: for every list of entries and all settings values (including
`savingsPercent > 100`), `totalEarnings = totalHours * hourlyWage`,
`recommendedSavings = totalEarnings * (savingsPercent / 100)` and
`spendable = totalEarnings - recommendedSavings`, with no clamping: whenever
`savingsPercent > 100` and earnings are positive, `spendable` is negative. -/
theorem summary_scalars_correct (entries : List Entry) (wage savePct : ℚ) :
    totalEarnings entries wage = totalHours entries * wage ∧
    recommendedSavings entries wage savePct = totalEarnings entries wage * (savePct / 100) ∧
    spendable entries wage savePct =
      totalEarnings entries wage - recommendedSavings entries wage savePct ∧
    spendable entries wage savePct = totalEarnings entries wage * (1 - savePct / 100) ∧
    (100 < savePct → 0 < totalEarnings entries wage → spendable entries wage savePct < 0) := by
  refine ⟨rfl, rfl, rfl, ?_, ?_⟩
  · unfold spendable recommendedSavings
    ring
  · intro hp he
    unfold spendable recommendedSavings
    have h1 : (1 : ℚ) - savePct / 100 < 0 := by linarith
    nlinarith

/-- Witness for C1 at a concrete input: one entry of 1 hour at wage 10 with a
savings percentage of 150 yields negative spendable money. -/
theorem summary_scalars_correct_witness :
    (100 : ℚ) < 150 ∧ 0 < totalEarnings [⟨"a", "2024-01-01", 1, ""⟩] 10 ∧
    spendable [⟨"a", "2024-01-01", 1, ""⟩] 10 150 < 0 :=
  ⟨by norm_num,
   by norm_num [totalEarnings, totalHours],
   (summary_scalars_correct [⟨"a", "2024-01-01", 1, ""⟩] 10 150).2.2.2.2 (by norm_num)
     (by norm_num [totalEarnings, totalHours])⟩

/-! ## C4: wishlist time-to-afford projection -/

/-- Claim C4: `wishlistWithTime` keeps each item's data and annotates it with
`weeksNeeded = ceil(needed / weeklyAverage)` when `needed = price - spendable`
is positive and the weekly average is positive, and with `0` otherwise. -/
theorem wishlistWithTime_correct (wl : List WishItem) (sp wa : ℚ) :
    (wishlistWithTime wl sp wa).length = wl.length ∧
    ∀ i (h : i < wl.length) (h2 : i < (wishlistWithTime wl sp wa).length),
      (wishlistWithTime wl sp wa).get ⟨i, h2⟩ =
        ⟨(wl.get ⟨i, h⟩).id, (wl.get ⟨i, h⟩).name, (wl.get ⟨i, h⟩).price,
          if 0 < (wl.get ⟨i, h⟩).price - sp ∧ 0 < wa
          then ⌈((wl.get ⟨i, h⟩).price - sp) / wa⌉ else 0⟩ := by
  constructor
  · simp [wishlistWithTime]
  · intro i h h2
    simp [wishlistWithTime, annotateItem]

/-- Witness for C4 at the specification's example: with spendable 40 and
weekly average 20, a 100-priced item needs 3 weeks and a 30-priced item 0. -/
theorem wishlistWithTime_correct_witness :
    (0 : ℕ) < 2 ∧ (1 : ℕ) < 2 ∧
    (wishlistWithTime [⟨"w1", "tv", 100⟩, ⟨"w2", "kb", 30⟩] 40 20).get
        ⟨0, by simp [wishlistWithTime]⟩ = ⟨"w1", "tv", 100, 3⟩ ∧
    (wishlistWithTime [⟨"w1", "tv", 100⟩, ⟨"w2", "kb", 30⟩] 40 20).get
        ⟨1, by simp [wishlistWithTime]⟩ = ⟨"w2", "kb", 30, 0⟩ := by
  have h0 := (wishlistWithTime_correct [⟨"w1", "tv", 100⟩, ⟨"w2", "kb", 30⟩] 40 20).2 0
    (by norm_num) (by simp [wishlistWithTime])
  have h1 := (wishlistWithTime_correct [⟨"w1", "tv", 100⟩, ⟨"w2", "kb", 30⟩] 40 20).2 1
    (by norm_num) (by simp [wishlistWithTime])
  refine ⟨by norm_num, by norm_num, ?_, ?_⟩
  · exact h0.trans (by simp; norm_num)
  · exact h1.trans (by simp; norm_num)

/-! ## C5: affordability partition (corrected) -/

/-- Counterexample to claim C5 as stated: with no entries the weekly average
is 0, so a 100-priced item with spendable 0 gets `weeksNeeded = 0` — the
"affordable now" annotation — even though its price exceeds spendable. -/
theorem affordability_claim_false :
    (annotateItem (spendable [] 15 20) (weeklyAverage [] 15) ⟨"w1", "tv", 100⟩).weeksNeeded = 0 ∧
    ¬ ((⟨"w1", "tv", 100⟩ : WishItem).price ≤ spendable [] 15 20) := by
  have hsp : spendable [] 15 20 = 0 := by
    norm_num [spendable, recommendedSavings, totalEarnings, totalHours]
  have hwa : weeklyAverage [] 15 = 0 := by simp [weeklyAverage]
  rw [hsp, hwa]
  constructor
  · simp [annotateItem]
  · norm_num

/-- Claim C5 amended: membership in `affordableItems` is exactly
`price ≤ spendable`; the `weeksNeeded` annotation is `0` iff
`price ≤ spendable` OR the weekly average is not positive, so the equivalence
between the zero annotation and affordability holds exactly when the weekly
average is positive. -/
theorem affordability_correct (wl : List WishItem) (sp wa : ℚ) (w : WishItem) (hw : w ∈ wl) :
    (w ∈ affordableItems wl sp ↔ w.price ≤ sp) ∧
    annotateItem sp wa w ∈ wishlistWithTime wl sp wa ∧
    ((annotateItem sp wa w).weeksNeeded = 0 ↔ (w.price ≤ sp ∨ wa ≤ 0)) ∧
    (0 < wa → ((annotateItem sp wa w).weeksNeeded = 0 ↔ w.price ≤ sp)) := by
  have hkey : (annotateItem sp wa w).weeksNeeded = 0 ↔ (w.price ≤ sp ∨ wa ≤ 0) := by
    unfold annotateItem
    by_cases hc : 0 < w.price - sp ∧ 0 < wa
    · simp only [if_pos hc]
      constructor
      · intro h0
        exfalso
        have : (0 : ℤ) < ⌈(w.price - sp) / wa⌉ := Int.ceil_pos.2 (div_pos hc.1 hc.2)
        omega
      · intro h
        rcases h with h | h
        · exact absurd h (by linarith [hc.1])
        · exact absurd h (not_le.2 hc.2)
    · simp only [if_neg hc]
      rcases not_and_or.1 hc with h | h
      · simp only [not_lt, sub_nonpos] at h
        simp [h]
      · simp only [not_lt] at h
        simp [h]
  refine ⟨?_, ?_, hkey, fun hwa => ?_⟩
  · simp [affordableItems, hw]
  · exact List.mem_map_of_mem _ hw
  · rw [hkey]
    constructor
    · intro h
      rcases h with h | h
      · exact h
      · exact absurd h (not_le.2 hwa)
    · exact Or.inl

/-- Witness for C5's amended theorem: with spendable 40 and weekly average 20,
the 30-priced item is in `affordableItems` and annotated 0 weeks; the
100-priced item is not affordable and annotated nonzero. -/
theorem affordability_correct_witness :
    (⟨"w2", "kb", 30⟩ : WishItem) ∈ [(⟨"w1", "tv", 100⟩ : WishItem), ⟨"w2", "kb", 30⟩] ∧
    ((⟨"w2", "kb", 30⟩ : WishItem) ∈
        affordableItems [⟨"w1", "tv", 100⟩, ⟨"w2", "kb", 30⟩] 40 ↔ (30 : ℚ) ≤ 40) ∧
    ((annotateItem 40 20 ⟨"w2", "kb", 30⟩).weeksNeeded = 0 ↔ ((30 : ℚ) ≤ 40 ∨ (20 : ℚ) ≤ 0)) := by
  have hm : (⟨"w2", "kb", 30⟩ : WishItem) ∈ [(⟨"w1", "tv", 100⟩ : WishItem), ⟨"w2", "kb", 30⟩] := by
    simp
  have h := affordability_correct [⟨"w1", "tv", 100⟩, ⟨"w2", "kb", 30⟩] 40 20 ⟨"w2", "kb", 30⟩ hm
  exact ⟨hm, h.1, h.2.2.1⟩

/-! ## C10: frame property of updateEntryField -/

/-- Claim C10: `updateEntryField` preserves the length and order of the store,
leaves every entry with a different id completely unchanged, and leaves the
store entirely unchanged for any field other than `"hours"` and `"note"`. -/
theorem updateEntryField_frame (st : List Entry) (id field value : String) :
    (updateEntryField st id field value).length = st.length ∧
    (∀ i (h : i < st.length) (h2 : i < (updateEntryField st id field value).length),
      (st.get ⟨i, h⟩).id ≠ id →
      (updateEntryField st id field value).get ⟨i, h2⟩ = st.get ⟨i, h⟩) ∧
    (field ≠ "hours" → field ≠ "note" → updateEntryField st id field value = st) := by
  refine ⟨by simp [updateEntryField], ?_, ?_⟩
  · intro i h h2 hid
    simp [updateEntryField, hid]
    intro h3
    exact absurd h3 hid
  · intro hh hn
    unfold updateEntryField
    have hcongr : ∀ e ∈ st,
        (if e.id ≠ id then e
         else if field = "hours" then
           match jsStrToNumber value with
           | none => e
           | some n => if n < 0 then e else { e with hours := n }
         else if field = "note" then { e with note := value }
         else e) = e := by
      intro e _
      by_cases hid : e.id ≠ id
      · simp [hid]
      · simp [hid, hh, hn]
    rw [List.map_congr_left hcongr]
    simp

/-- Witness for C10: updating entry `"b"`'s note leaves entry `"a"` unchanged,
and an unknown field name changes nothing. -/
theorem updateEntryField_frame_witness :
    ((⟨"a", "2024-01-01", 2, "x"⟩ : Entry).id ≠ "b") ∧
    (updateEntryField [⟨"a", "2024-01-01", 2, "x"⟩, ⟨"b", "2024-01-02", 3, "y"⟩] "b" "note" "z").get
        ⟨0, by simp [updateEntryField]⟩ = ⟨"a", "2024-01-01", 2, "x"⟩ ∧
    updateEntryField [⟨"a", "2024-01-01", 2, "x"⟩] "a" "color" "red" =
      [⟨"a", "2024-01-01", 2, "x"⟩] := by
  refine ⟨by decide, ?_, ?_⟩
  · exact (updateEntryField_frame [⟨"a", "2024-01-01", 2, "x"⟩, ⟨"b", "2024-01-02", 3, "y"⟩]
      "b" "note" "z").2.1 0 (by norm_num) (by simp [updateEntryField]) (by decide)
  · exact (updateEntryField_frame [⟨"a", "2024-01-01", 2, "x"⟩] "a" "color" "red").2.2
      (by decide) (by decide)

/-! ## C6: addEntry validation and insertion -/

/-- Claim C6: `addEntry` rejects — reporting a validation error and leaving
the entry collection unchanged — whenever the date is empty or the hours value
is not a non-negative number; on success it reports no error and the new
collection is the old one plus the new entry, re-sorted by date ascending. -/
theorem addEntry_correct (st : List Entry) (date : String) (hours : Option ℚ)
    (note : String) (newId : String) :
    ((date = "" ∨ hours = none ∨ ∃ h, hours = some h ∧ h < 0) →
      (addEntry st date hours note newId).1 = st ∧
      ((addEntry st date hours note newId).2).isSome = true) ∧
    (∀ h : ℚ, hours = some h → date ≠ "" → 0 ≤ h →
      (addEntry st date hours note newId).2 = none ∧
      ((addEntry st date hours note newId).1).Perm (st ++ [⟨newId, date, h, note⟩]) ∧
      List.Sorted entryLe ((addEntry st date hours note newId).1)) := by
  constructor
  · intro hbad
    by_cases hd : date = ""
    · simp [addEntry, hd]
    · rcases hbad with h | h | ⟨hq, hh, hneg⟩
      · exact absurd h hd
      · simp [addEntry, hd, h]
      · simp [addEntry, hd, hh, hneg]
  · intro h hh hd h0
    have hlt : ¬ h < 0 := not_lt.2 h0
    have hres : addEntry st date hours note newId =
        (sortEntries (st ++ [⟨newId, date, h, note⟩]), none) := by
      simp [addEntry, hh, hd, hlt]
    rw [hres]
    exact ⟨rfl, List.perm_insertionSort entryLe _, List.sorted_insertionSort entryLe _⟩

/-- Witness for C6: `addEntry` with hours `-1` leaves a one-entry collection
unchanged and reports an error; with hours `3` it succeeds, and the result is
a sorted permutation of the appended collection. -/
theorem addEntry_correct_witness :
    ((addEntry [⟨"x", "2024-01-02", 2, ""⟩] "2024-01-03" (some (-1)) "" "y").1 =
        [⟨"x", "2024-01-02", 2, ""⟩] ∧
      ((addEntry [⟨"x", "2024-01-02", 2, ""⟩] "2024-01-03" (some (-1)) "" "y").2).isSome = true) ∧
    ((addEntry [⟨"x", "2024-01-02", 2, ""⟩] "2024-01-01" (some 3) "" "y").2 = none ∧
      ((addEntry [⟨"x", "2024-01-02", 2, ""⟩] "2024-01-01" (some 3) "" "y").1).Perm
        ([⟨"x", "2024-01-02", 2, ""⟩] ++ [⟨"y", "2024-01-01", 3, ""⟩]) ∧
      List.Sorted entryLe ((addEntry [⟨"x", "2024-01-02", 2, ""⟩] "2024-01-01" (some 3) "" "y").1)) :=
  ⟨(addEntry_correct [⟨"x", "2024-01-02", 2, ""⟩] "2024-01-03" (some (-1)) "" "y").1
      (Or.inr (Or.inr ⟨-1, rfl, by norm_num⟩)),
   (addEntry_correct [⟨"x", "2024-01-02", 2, ""⟩] "2024-01-01" (some 3) "" "y").2 3 rfl
      (by decide) (by norm_num)⟩

/-! ## C7: total hours over raw stored entries (corrected) -/

/-- NaN absorbs on the left through the whole fold. -/
lemma foldl_qAdd_none (l : List RawEntry) :
    l.foldl (fun s e => qAdd s (JVal.toNumber e.hours.orZero)) none = none := by
  induction l with
  | nil => rfl
  | cons e l ih =>
    have h : qAdd none (JVal.toNumber e.hours.orZero) = none := by
      cases JVal.toNumber e.hours.orZero <;> rfl
    simpa [h] using ih

/-- NaN absorbs on the right: a single `NaN` contribution poisons the fold. -/
lemma qAdd_right_none (a : Option ℚ) : qAdd a none = none := by
  cases a <;> rfl

/-- When every contribution is a number, the fold is the plain sum shifted by
the accumulator. -/
lemma foldl_qAdd_some (l : List RawEntry) (a : ℚ)
    (hok : ∀ e ∈ l, (JVal.toNumber e.hours.orZero).isSome) :
    l.foldl (fun s e => qAdd s (JVal.toNumber e.hours.orZero)) (some a) =
      some (a + (l.map (fun e => (JVal.toNumber e.hours.orZero).getD 0)).sum) := by
  induction l generalizing a with
  | nil => simp
  | cons e l ih =>
    obtain ⟨q, hq⟩ := Option.isSome_iff_exists.1 (hok e (by simp))
    have ih2 := ih (a + q) (fun x hx => hok x (by simp [hx]))
    simp only [List.foldl_cons, List.map_cons, List.sum_cons, hq]
    rw [show qAdd (some a) (some q) = some (a + q) from rfl, ih2]
    simp [add_assoc]

/-- A NaN contribution anywhere poisons the fold from any accumulator. -/
lemma foldl_qAdd_poisoned (l : List RawEntry)
    (hbad : ∃ e ∈ l, JVal.toNumber e.hours.orZero = none) :
    ∀ a : Option ℚ, l.foldl (fun s e => qAdd s (JVal.toNumber e.hours.orZero)) a = none := by
  induction l with
  | nil => simp at hbad
  | cons e l ih =>
    intro a
    rcases hbad with ⟨x, hx, hnone⟩
    rcases List.mem_cons.1 hx with h | h
    · subst h
      simp only [List.foldl_cons, hnone, qAdd_right_none]
      exact foldl_qAdd_none l
    · exact ih ⟨x, h, hnone⟩ _

/-- `Number(q || 0) = q` for a numeric value. -/
lemma toNumber_orZero_num (q : ℚ) : JVal.toNumber (JVal.orZero (.num q)) = some q := by
  unfold JVal.orZero JVal.falsy
  by_cases h : q = 0
  · simp [h, JVal.toNumber]
  · simp [h, JVal.toNumber]

/-- Counterexample to claim C7 as stated: an entry whose `hours` is the
non-numeric string `"abc"` is truthy, so `Number(e.hours || 0)` is `NaN` and
the whole total becomes `NaN` — it does not contribute zero (the total of the
one-entry list would then be `0`). -/
theorem totalHours_claim_false :
    totalHoursJS [⟨"e1", "2024-01-01", .str "abc", ""⟩] = none ∧
    totalHoursJS [⟨"e1", "2024-01-01", .str "abc", ""⟩] ≠ some 0 ∧
    (JVal.toNumber (JVal.orZero (.str "abc"))).getD 0 = 0 := by
  refine ⟨by decide, by decide, by decide⟩

/-- Claim C7 amended: `totalHours` is the sum of the entries' hours values
where a missing (`undefined`), `NaN`, or empty-string hours contributes zero,
provided no entry holds a non-numeric non-empty string; one such entry makes
the whole total `NaN` instead.  On app-created entries it is the plain sum of
the numeric hours fields. -/
theorem totalHoursJS_correct (entries : List RawEntry) :
    ((∀ e ∈ entries, (JVal.toNumber e.hours.orZero).isSome) →
      totalHoursJS entries =
        some ((entries.map (fun e => (JVal.toNumber e.hours.orZero).getD 0)).sum)) ∧
    ((∃ e ∈ entries, JVal.toNumber e.hours.orZero = none) → totalHoursJS entries = none) ∧
    JVal.toNumber (JVal.orZero .undef) = some 0 ∧
    JVal.toNumber (JVal.orZero .nan) = some 0 ∧
    JVal.toNumber (JVal.orZero (.str "")) = some 0 ∧
    (∀ l : List Entry, totalHoursJS (l.map toRaw) = some (totalHours l)) := by
  refine ⟨?_, ?_, by decide, by decide, by decide, ?_⟩
  · intro hok
    unfold totalHoursJS
    rw [foldl_qAdd_some entries 0 hok]
    simp
  · intro hbad
    exact foldl_qAdd_poisoned entries hbad (some 0)
  · intro l
    unfold totalHoursJS totalHours
    have key : ∀ a : ℚ, (l.map toRaw).foldl (fun s e => qAdd s (JVal.toNumber e.hours.orZero))
        (some a) = some (l.foldl (fun s e => s + e.hours) a) := by
      induction l with
      | nil => intro a; rfl
      | cons e l ih =>
        intro a
        simp only [List.map_cons, List.foldl_cons, toRaw, toNumber_orZero_num, qAdd]
        exact ih (a + e.hours)
    exact key 0

/-- Witness for C7's amended theorem: a store holding a missing hours value
and a numeric `3` totals to `3`; the same list as the per-entry sum the
theorem produces. -/
theorem totalHoursJS_correct_witness :
    (∀ e ∈ [(⟨"e1", "2024-01-01", .undef, ""⟩ : RawEntry), ⟨"e2", "2024-01-02", .num 3, ""⟩],
      (JVal.toNumber e.hours.orZero).isSome) ∧
    totalHoursJS [(⟨"e1", "2024-01-01", .undef, ""⟩ : RawEntry), ⟨"e2", "2024-01-02", .num 3, ""⟩] =
      some ((([(⟨"e1", "2024-01-01", .undef, ""⟩ : RawEntry), ⟨"e2", "2024-01-02", .num 3, ""⟩]).map
        (fun e => (JVal.toNumber e.hours.orZero).getD 0)).sum) ∧
    totalHoursJS ([(⟨"e2", "2024-01-02", 3, ""⟩ : Entry)].map toRaw) =
      some (totalHours [(⟨"e2", "2024-01-02", 3, ""⟩ : Entry)]) :=
  ⟨by decide,
   (totalHoursJS_correct [(⟨"e1", "2024-01-01", .undef, ""⟩ : RawEntry),
      ⟨"e2", "2024-01-02", .num 3, ""⟩]).1 (by decide),
   (totalHoursJS_correct []).2.2.2.2.2 [(⟨"e2", "2024-01-02", 3, ""⟩ : Entry)]⟩

/-! ## C9: id uniqueness (corrected) -/

/-- `updateEntryField` preserves the id sequence of the store. -/
lemma entryIds_updateEntryField (st : List Entry) (id field value : String) :
    entryIds (updateEntryField st id field value) = entryIds st := by
  unfold entryIds updateEntryField
  rw [List.map_map]
  apply List.map_congr_left
  intro e _
  simp only [Function.comp_apply]
  by_cases hid : e.id ≠ id
  · rw [if_pos hid]
  · rw [if_neg hid]
    by_cases hf : field = "hours"
    · rw [if_pos hf]
      cases hv : jsStrToNumber value with
      | none => rfl
      | some n =>
        by_cases hn : n < 0
        · simp [hn]
        · simp [hn]
    · rw [if_neg hf]
      by_cases hnote : field = "note"
      · rw [if_pos hnote]
      · rw [if_neg hnote]

/-- The id sequence after `addEntry` is unchanged on rejection and a
permutation of the old ids plus the new id on success. -/
lemma entryIds_addEntry (st : List Entry) (date : String) (hours : Option ℚ)
    (note : String) (newId : String) :
    entryIds (addEntry st date hours note newId).1 = entryIds st ∨
    (entryIds (addEntry st date hours note newId).1).Perm (entryIds st ++ [newId]) := by
  unfold addEntry
  by_cases hd : date = ""
  · left; rw [if_pos hd]
  · rw [if_neg hd]
    cases hours with
    | none => left; rfl
    | some h =>
      by_cases hneg : h < 0
      · left; simp [hneg]
      · right
        simp only [if_neg hneg]
        have hperm := (List.perm_insertionSort entryLe
          (st ++ [⟨newId, date, h, note⟩])).map Entry.id
        simp only [List.map_append, List.map_cons, List.map_nil] at hperm
        exact hperm

/-- One mutation preserves per-collection id uniqueness when the id supplied
to an add action is fresh. -/
lemma step_preserves_nodup (s : AppState) (op : Op)
    (h1 : (entryIds s.entries).Nodup) (h2 : (wishIds s.wishlist).Nodup)
    (hf : match op with
          | .opAddEntry id _ _ _ => id ∉ entryIds s.entries
          | .opAddWish id _ _ => id ∉ wishIds s.wishlist
          | _ => True) :
    (entryIds (step s op).entries).Nodup ∧ (wishIds (step s op).wishlist).Nodup := by
  cases op with
  | opAddEntry id date hours note =>
    refine ⟨?_, h2⟩
    rcases entryIds_addEntry s.entries date hours note id with h | h
    · simpa [step, h] using h1
    · have : (entryIds s.entries ++ [id]).Nodup := by
        simp only [List.nodup_append]
        exact ⟨h1, List.nodup_singleton id,
          fun a ha hmem => hf ((List.mem_singleton.1 hmem) ▸ ha)⟩
      simpa [step] using (h.nodup_iff).2 this
  | opRemoveEntry id =>
    refine ⟨?_, h2⟩
    simp only [step, removeEntry]
    exact List.Nodup.sublist ((List.filter_sublist s.entries).map Entry.id) h1
  | opUpdateEntry id field value =>
    refine ⟨?_, h2⟩
    simpa [step, entryIds_updateEntryField] using h1
  | opAddWish id name price =>
    refine ⟨h1, ?_⟩
    simp only [step, addWishlist]
    by_cases hn : name.trim = ""
    · simpa [hn] using h2
    · rw [if_neg hn]
      cases price with
      | none => exact h2
      | some p =>
        by_cases hp : p < 0
        · simpa [hp] using h2
        · simp only [if_neg hp]
          have : (wishIds s.wishlist ++ [id]).Nodup := by
            simp only [List.nodup_append]
            exact ⟨h2, List.nodup_singleton id,
              fun a ha hmem => hf ((List.mem_singleton.1 hmem) ▸ ha)⟩
          simpa [wishIds] using this
  | opRemoveWish id =>
    refine ⟨h1, ?_⟩
    simp only [step, removeWishlist]
    exact List.Nodup.sublist ((List.filter_sublist s.wishlist).map WishItem.id) h2
  | opClearAll c =>
    cases c with
    | true => exact ⟨by simp [step, entryIds], by simp [step, wishIds]⟩
    | false => exact ⟨h1, h2⟩

/-- Counterexample to claim C9 as stated: `uid()` draws 7 random base-36
characters with no uniqueness check, so two add actions can receive the same
id; after two `addEntry` actions whose `uid()` both returned `"a"`, the entry
collection holds two entries with id `"a"`. -/
theorem ids_unique_claim_false :
    ¬ (entryIds (run ⟨[], [], 15, 20⟩
        [.opAddEntry "a" "2024-01-01" (some 1) "",
         .opAddEntry "a" "2024-01-02" (some 2) ""]).entries).Nodup := by
  decide

/-- Claim C9 amended: in every state reachable by mutations whose add actions
are supplied fresh ids (ids not currently present in the collection they
join — the property `uid()` is trusted for but does not enforce), entry ids
and wishlist ids are each duplicate-free. -/
theorem ids_unique_of_fresh (s : AppState) (ops : List Op)
    (h1 : (entryIds s.entries).Nodup) (h2 : (wishIds s.wishlist).Nodup)
    (hf : FreshIds s ops) :
    (entryIds (run s ops).entries).Nodup ∧ (wishIds (run s ops).wishlist).Nodup := by
  induction ops generalizing s with
  | nil => exact ⟨h1, h2⟩
  | cons op ops ih =>
    have hstep := step_preserves_nodup s op h1 h2 hf.1
    exact ih (step s op) hstep.1 hstep.2 hf.2

/-- Witness for C9's amended theorem: from the empty state, adding an entry
(id `"a"`) and a wishlist item (id `"b"`) with fresh ids yields duplicate-free
id lists. -/
theorem ids_unique_of_fresh_witness :
    FreshIds ⟨[], [], 15, 20⟩
      [.opAddEntry "a" "2024-01-01" (some 1) "", .opAddWish "b" "gift" (some 5)] ∧
    (entryIds (run ⟨[], [], 15, 20⟩
      [.opAddEntry "a" "2024-01-01" (some 1) "", .opAddWish "b" "gift" (some 5)]).entries).Nodup ∧
    (wishIds (run ⟨[], [], 15, 20⟩
      [.opAddEntry "a" "2024-01-01" (some 1) "", .opAddWish "b" "gift" (some 5)]).wishlist).Nodup := by
  have hfresh : FreshIds ⟨[], [], 15, 20⟩
      [.opAddEntry "a" "2024-01-01" (some 1) "", .opAddWish "b" "gift" (some 5)] := by
    refine ⟨by decide, by decide, trivial⟩
  have h := ids_unique_of_fresh ⟨[], [], 15, 20⟩
    [.opAddEntry "a" "2024-01-01" (some 1) "", .opAddWish "b" "gift" (some 5)]
    (by decide) (by decide) hfresh
  exact ⟨hfresh, h.1, h.2⟩

/-! ## C2: the monthly chart series -/

lemma bool_eq_false {b : Bool} (h : ¬ b = true) : b = false := by
  cases b
  · rfl
  · exact absurd rfl h

lemma alookup_cons (p : String × ℚ) (m : List (String × ℚ)) (k : String) :
    alookup (p :: m) k = if p.1 = k then p.2 else alookup m k := by
  by_cases h : p.1 = k
  · simp [alookup, List.find?_cons, h]
  · simp [alookup, List.find?_cons, h]

lemma alookup_map_update_ne (m : List (String × ℚ)) (k : String) (v : ℚ) (k' : String)
    (hne : k' ≠ k) :
    alookup (m.map (fun p => if p.1 = k then (p.1, p.2 + v) else p)) k' = alookup m k' := by
  induction m with
  | nil => rfl
  | cons q m ih =>
    simp only [List.map_cons]
    by_cases hq : q.1 = k
    · rw [if_pos hq]
      rw [alookup_cons, alookup_cons]
      by_cases hk' : q.1 = k'
      · exact absurd (hk'.symm.trans hq) hne
      · simp only [if_neg hk', ih]
    · rw [if_neg hq, alookup_cons, alookup_cons]
      by_cases hk' : q.1 = k'
      · simp [hk']
      · simp only [if_neg hk', ih]

lemma alookup_map_update_eq (m : List (String × ℚ)) (k : String) (v : ℚ)
    (hany : m.any (fun p => p.1 = k) = true) :
    alookup (m.map (fun p => if p.1 = k then (p.1, p.2 + v) else p)) k = alookup m k + v := by
  induction m with
  | nil => simp at hany
  | cons q m ih =>
    simp only [List.map_cons]
    by_cases hq : q.1 = k
    · rw [if_pos hq, alookup_cons, alookup_cons, if_pos hq, if_pos hq]
    · rw [if_neg hq, alookup_cons, alookup_cons, if_neg hq, if_neg hq]
      apply ih
      simpa [List.any_cons, hq] using hany

lemma alookup_not_mem (m : List (String × ℚ)) (k : String)
    (h : m.any (fun p => p.1 = k) = false) : alookup m k = 0 := by
  induction m with
  | nil => rfl
  | cons q m ih =>
    simp only [List.any_cons, Bool.or_eq_false_iff] at h
    rw [alookup_cons, if_neg (by simpa using h.1)]
    exact ih h.2

lemma alookup_append_single_ne (m : List (String × ℚ)) (k : String) (v : ℚ) (k' : String)
    (hne : k' ≠ k) : alookup (m ++ [(k, v)]) k' = alookup m k' := by
  induction m with
  | nil =>
    simp only [List.nil_append]
    rw [alookup_cons, if_neg (fun h => hne h.symm)]
  | cons q m ih =>
    simp only [List.cons_append]
    rw [alookup_cons, alookup_cons, ih]

lemma alookup_append_single_eq (m : List (String × ℚ)) (k : String) (v : ℚ)
    (h : m.any (fun p => p.1 = k) = false) : alookup (m ++ [(k, v)]) k = v := by
  induction m with
  | nil =>
    simp only [List.nil_append]
    rw [alookup_cons, if_pos rfl]
  | cons q m ih =>
    simp only [List.any_cons, Bool.or_eq_false_iff] at h
    simp only [List.cons_append]
    rw [alookup_cons, if_neg (by simpa using h.1)]
    exact ih h.2

lemma alookup_mapAdd (m : List (String × ℚ)) (k : String) (v : ℚ) (k' : String) :
    alookup (mapAdd m k v) k' = alookup m k' + (if k' = k then v else 0) := by
  unfold mapAdd
  by_cases hany : m.any (fun p => p.1 = k) = true
  · rw [if_pos hany]
    by_cases hk : k' = k
    · subst hk
      rw [alookup_map_update_eq m k' v hany, if_pos rfl]
    · rw [alookup_map_update_ne m k v k' hk, if_neg hk, add_zero]
  · rw [if_neg hany]
    have hfalse : m.any (fun p => p.1 = k) = false := bool_eq_false hany
    by_cases hk : k' = k
    · subst hk
      rw [alookup_append_single_eq m k' v hfalse, alookup_not_mem m k' hfalse, if_pos rfl,
        zero_add]
    · rw [alookup_append_single_ne m k v k' hk, if_neg hk, add_zero]

lemma alookup_fold (wage : ℚ) (k : String) :
    ∀ (entries : List Entry) (m0 : List (String × ℚ)),
      alookup (entries.foldl (fun m e => mapAdd m (monthKey e) (e.hours * wage)) m0) k =
        alookup m0 k +
          ((entries.filter (fun e => monthKey e = k)).map (fun e => e.hours * wage)).sum := by
  intro entries
  induction entries with
  | nil => intro m0; simp
  | cons e rest ih =>
    intro m0
    simp only [List.foldl_cons]
    rw [ih (mapAdd m0 (monthKey e) (e.hours * wage)), alookup_mapAdd]
    by_cases hk : k = monthKey e
    · have hcond : (monthKey e = k) := hk.symm
      rw [if_pos hk]
      have hfil : (e :: rest).filter (fun e => monthKey e = k) =
          e :: rest.filter (fun e => monthKey e = k) := by
        simp [List.filter_cons, hcond]
      rw [hfil, List.map_cons, List.sum_cons]
      ring
    · have hcond : ¬ (monthKey e = k) := fun h => hk h.symm
      rw [if_neg hk, add_zero]
      have hfil : (e :: rest).filter (fun e => monthKey e = k) =
          rest.filter (fun e => monthKey e = k) := by
        simp [List.filter_cons, hcond]
      rw [hfil]

lemma keys_mapAdd (m : List (String × ℚ)) (k : String) (v : ℚ) :
    (mapAdd m k v).map Prod.fst =
      if m.any (fun p => p.1 = k) then m.map Prod.fst else m.map Prod.fst ++ [k] := by
  unfold mapAdd
  by_cases hany : m.any (fun p => p.1 = k) = true
  · rw [if_pos hany, if_pos hany, List.map_map]
    apply List.map_congr_left
    intro p _
    by_cases hp : p.1 = k <;> simp [hp]
  · rw [if_neg hany, if_neg hany, List.map_append]
    rfl

lemma mem_keys_fold (wage : ℚ) (x : String) :
    ∀ (entries : List Entry) (m0 : List (String × ℚ)),
      (x ∈ (entries.foldl (fun m e => mapAdd m (monthKey e) (e.hours * wage)) m0).map Prod.fst ↔
        x ∈ m0.map Prod.fst ∨ x ∈ entries.map monthKey) := by
  intro entries
  induction entries with
  | nil => intro m0; simp
  | cons e rest ih =>
    intro m0
    simp only [List.foldl_cons]
    rw [ih, keys_mapAdd]
    by_cases hany : m0.any (fun p => p.1 = monthKey e) = true
    · rw [if_pos hany]
      have hmem : monthKey e ∈ m0.map Prod.fst := by
        rcases List.any_eq_true.1 hany with ⟨p, hp, hpk⟩
        have : p.1 = monthKey e := by simpa using hpk
        exact this ▸ List.mem_map_of_mem Prod.fst hp
      simp only [List.map_cons, List.mem_cons]
      constructor
      · rintro (h | h)
        · exact Or.inl h
        · exact Or.inr (Or.inr h)
      · rintro (h | h | h)
        · exact Or.inl h
        · exact Or.inl (h ▸ hmem)
        · exact Or.inr h
    · rw [if_neg hany]
      simp only [List.mem_append, List.map_cons, List.mem_cons, List.mem_singleton]
      tauto

lemma nodup_keys_fold (wage : ℚ) :
    ∀ (entries : List Entry) (m0 : List (String × ℚ)), (m0.map Prod.fst).Nodup →
      ((entries.foldl (fun m e => mapAdd m (monthKey e) (e.hours * wage)) m0).map
        Prod.fst).Nodup := by
  intro entries
  induction entries with
  | nil => intro m0 h; exact h
  | cons e rest ih =>
    intro m0 h
    simp only [List.foldl_cons]
    apply ih
    rw [keys_mapAdd]
    by_cases hany : m0.any (fun p => p.1 = monthKey e) = true
    · rw [if_pos hany]; exact h
    · rw [if_neg hany]
      have hfalse := bool_eq_false hany
      have hnot : monthKey e ∉ m0.map Prod.fst := by
        intro hmem
        rcases List.mem_map.1 hmem with ⟨p, hp, hpk⟩
        have := (List.any_eq_false.1 hfalse) p hp
        simp [hpk] at this
      simp only [List.nodup_append]
      exact ⟨h, List.nodup_singleton _, fun a ha hmem =>
        hnot ((List.mem_singleton.1 hmem) ▸ ha)⟩

lemma monthMap_keys_perm (entries : List Entry) (wage : ℚ) :
    ((monthMap entries wage).map Prod.fst).Perm (entries.map monthKey).dedup := by
  refine (List.perm_ext_iff_of_nodup ?_ ?_).2 ?_
  · exact nodup_keys_fold wage entries [] (by simp)
  · exact List.nodup_dedup _
  · intro x
    unfold monthMap
    rw [mem_keys_fold]
    simp [List.mem_dedup]

lemma sorted_keys_eq (entries : List Entry) (wage : ℚ) :
    List.insertionSort strLe ((monthMap entries wage).map Prod.fst) =
      List.insertionSort strLe (entries.map monthKey).dedup := by
  have h1 : List.Sorted strLe (List.insertionSort strLe ((monthMap entries wage).map Prod.fst)) :=
    List.sorted_insertionSort _ _
  have h2 : List.Sorted strLe (List.insertionSort strLe (entries.map monthKey).dedup) :=
    List.sorted_insertionSort _ _
  have hp : (List.insertionSort strLe ((monthMap entries wage).map Prod.fst)).Perm
      (List.insertionSort strLe (entries.map monthKey).dedup) :=
    ((List.perm_insertionSort _ _).trans (monthMap_keys_perm entries wage)).trans
      (List.perm_insertionSort _ _).symm
  exact List.eq_of_perm_of_sorted hp h1 h2

/-- Claim C2: the monthly chart series partitions entries by the first 7
characters of their date, sums `hours * wage` within each group, rounds each
group to 2 decimals (half up on the cent), and emits the groups in ascending
month-key order — stated as equality with the series the specification
describes, plus the specification's concrete example.  Determinism for equal
inputs is inherent: the series is a function of the entries and the wage. -/
theorem chartData_correct (entries : List Entry) (wage : ℚ) :
    chartData entries wage = chartDataSpec entries wage ∧
    chartData [⟨"a", "2024-01-05", 2, ""⟩, ⟨"b", "2024-01-20", 3, ""⟩,
        ⟨"c", "2024-02-01", 1, ""⟩] 10 = [("2024-01", 50), ("2024-02", 10)] := by
  constructor
  · unfold chartData chartDataSpec
    rw [sorted_keys_eq]
    apply List.map_congr_left
    intro k _
    have h := alookup_fold wage k entries []
    have hz : alookup [] k = 0 := rfl
    rw [hz, zero_add] at h
    unfold monthMap
    rw [h]
  · have t1 : ("2024-01-05" : String).take 7 = "2024-01" := by decide
    have t2 : ("2024-01-20" : String).take 7 = "2024-01" := by decide
    have t3 : ("2024-02-01" : String).take 7 = "2024-02" := by decide
    have ne12 : ("2024-01" : String) ≠ "2024-02" := by decide
    have ne21 : ("2024-02" : String) ≠ "2024-01" := by decide
    have hle : strLe "2024-01" "2024-02" := by decide
    have hm : monthMap [⟨"a", "2024-01-05", 2, ""⟩, ⟨"b", "2024-01-20", 3, ""⟩,
        ⟨"c", "2024-02-01", 1, ""⟩] 10 = [("2024-01", 50), ("2024-02", 10)] := by
      norm_num [monthMap, mapAdd, monthKey, t1, t2, t3, ne12, ne21]
    have r1 : round2 50 = 50 := by norm_num [round2]
    have r2 : round2 10 = 10 := by norm_num [round2]
    unfold chartData
    rw [hm]
    simp [List.insertionSort, List.orderedInsert, hle, alookup, List.find?, ne12, ne21, r1, r2]

/-! ## C3: weekly average pay -/

lemma getLastD_mem {α : Type} : ∀ (rest : List α) (e : α), List.getLastD rest e ∈ e :: rest := by
  intro rest
  induction rest with
  | nil => intro e; simp
  | cons f rest ih =>
    intro e
    rw [List.getLastD_cons]
    exact List.mem_cons_of_mem e (ih f)

lemma sorted_head_min (e : Entry) (rest : List Entry)
    (h : List.Sorted entryLe (e :: rest)) :
    ∀ x ∈ e :: rest, strLe e.date x.date := by
  intro x hx
  rcases List.mem_cons.1 hx with h1 | h1
  · rw [h1]; exact lexLe_refl _
  · exact (List.sorted_cons.1 h).1 x h1

lemma sorted_getLastD_max :
    ∀ (rest : List Entry) (e : Entry), List.Sorted entryLe (e :: rest) →
      ∀ x ∈ e :: rest, strLe x.date (List.getLastD rest e).date := by
  intro rest
  induction rest with
  | nil =>
    intro e _ x hx
    rcases List.mem_cons.1 hx with h1 | h1
    · rw [h1]; exact lexLe_refl _
    · simp at h1
  | cons f rest ih =>
    intro e h x hx
    rw [List.getLastD_cons]
    have htail : List.Sorted entryLe (f :: rest) := (List.sorted_cons.1 h).2
    have hef : entryLe e f := (List.sorted_cons.1 h).1 f (by simp)
    rcases List.mem_cons.1 hx with h1 | h1
    · have hf := ih f htail f (by simp)
      rw [h1]
      exact lexLe_trans _ _ _ hef hf
    · exact ih f htail x h1

lemma ms_ratio (q : ℚ) : q * 86400000 / 604800000 = q / 7 := by
  rw [div_eq_div_iff (by norm_num) (by norm_num)]
  ring

/-- Claim C3: the weekly average is 0 for no entries; otherwise it is
`totalEarnings / weeks` with `weeks = max(1, ceil(elapsedDays / 7))`, where
`elapsedDays` is the day difference between the lexicographically earliest and
latest entry dates. -/
theorem weeklyAverage_correct (entries : List Entry) (wage : ℚ) :
    (entries = [] → weeklyAverage entries wage = 0) ∧
    (entries ≠ [] → ∃ dmin dmax,
      dmin ∈ entries.map Entry.date ∧ dmax ∈ entries.map Entry.date ∧
      (∀ d ∈ entries.map Entry.date, strLe dmin d ∧ strLe d dmax) ∧
      weeklyAverage entries wage =
        totalEarnings entries wage /
          ((max 1 ⌈((dateToDays dmax : ℚ) - (dateToDays dmin : ℚ)) / 7⌉ : ℤ) : ℚ)) := by
  constructor
  · intro h
    simp [weeklyAverage, h]
  · intro h
    have hperm : (sortEntries entries).Perm entries := List.perm_insertionSort entryLe entries
    have hsorted : List.Sorted entryLe (sortEntries entries) :=
      List.sorted_insertionSort entryLe entries
    have hne : sortEntries entries ≠ [] := by
      intro h0
      apply h
      have := hperm.symm
      rw [h0] at this
      exact this.eq_nil
    obtain ⟨e, rest, heq⟩ := List.exists_cons_of_ne_nil hne
    rw [heq] at hperm hsorted
    refine ⟨e.date, (List.getLastD rest e).date, ?_, ?_, ?_, ?_⟩
    · exact List.mem_map_of_mem Entry.date (hperm.mem_iff.1 (by simp))
    · exact List.mem_map_of_mem Entry.date (hperm.mem_iff.1 (getLastD_mem rest e))
    · intro d hd
      rcases List.mem_map.1 hd with ⟨x, hx, hxd⟩
      have hx2 : x ∈ e :: rest := hperm.mem_iff.2 hx
      exact hxd ▸ ⟨sorted_head_min e rest hsorted x hx2,
        sorted_getLastD_max rest e hsorted x hx2⟩
    · have hc : ((dateToDays (List.getLastD rest e).date - dateToDays e.date : ℤ) : ℚ) *
          86400000 / 604800000 =
          ((dateToDays (List.getLastD rest e).date : ℚ) - (dateToDays e.date : ℚ)) / 7 := by
        push_cast
        rw [ms_ratio]
      simp only [weeklyAverage, h, if_false, heq]
      rw [hc]

/-- Witness for C3 at the specification's example: entries on 2024-01-01 and
2024-01-15 (14 days apart) with wage 10 and 10 combined hours give 2 weeks and
a weekly average of 50. -/
theorem weeklyAverage_correct_witness :
    ([(⟨"a", "2024-01-01", 4, ""⟩ : Entry), ⟨"b", "2024-01-15", 6, ""⟩] ≠ []) ∧
    (∃ dmin dmax,
      dmin ∈ [(⟨"a", "2024-01-01", 4, ""⟩ : Entry), ⟨"b", "2024-01-15", 6, ""⟩].map Entry.date ∧
      dmax ∈ [(⟨"a", "2024-01-01", 4, ""⟩ : Entry), ⟨"b", "2024-01-15", 6, ""⟩].map Entry.date ∧
      (∀ d ∈ [(⟨"a", "2024-01-01", 4, ""⟩ : Entry), ⟨"b", "2024-01-15", 6, ""⟩].map Entry.date,
        strLe dmin d ∧ strLe d dmax) ∧
      weeklyAverage [(⟨"a", "2024-01-01", 4, ""⟩ : Entry), ⟨"b", "2024-01-15", 6, ""⟩] 10 =
        totalEarnings [(⟨"a", "2024-01-01", 4, ""⟩ : Entry), ⟨"b", "2024-01-15", 6, ""⟩] 10 /
          ((max 1 ⌈((dateToDays dmax : ℚ) - (dateToDays dmin : ℚ)) / 7⌉ : ℤ) : ℚ)) ∧
    weeklyAverage [(⟨"a", "2024-01-01", 4, ""⟩ : Entry), ⟨"b", "2024-01-15", 6, ""⟩] 10 = 50 := by
  have hne : ([(⟨"a", "2024-01-01", 4, ""⟩ : Entry), ⟨"b", "2024-01-15", 6, ""⟩] ≠ []) := by
    simp
  refine ⟨hne, (weeklyAverage_correct
    [(⟨"a", "2024-01-01", 4, ""⟩ : Entry), ⟨"b", "2024-01-15", 6, ""⟩] 10).2 hne, ?_⟩
  have hsort : sortEntries [(⟨"a", "2024-01-01", 4, ""⟩ : Entry), ⟨"b", "2024-01-15", 6, ""⟩] =
      [(⟨"a", "2024-01-01", 4, ""⟩ : Entry), ⟨"b", "2024-01-15", 6, ""⟩] := by
    have hle : entryLe ⟨"a", "2024-01-01", 4, ""⟩ ⟨"b", "2024-01-15", 6, ""⟩ := by decide
    simp [sortEntries, List.insertionSort, List.orderedInsert, hle]
  have hd1 : dateToDays "2024-01-01" = 19723 := by decide
  have hd2 : dateToDays "2024-01-15" = 19737 := by decide
  have hte : totalEarnings [(⟨"a", "2024-01-01", 4, ""⟩ : Entry), ⟨"b", "2024-01-15", 6, ""⟩] 10 =
      100 := by
    norm_num [totalEarnings, totalHours]
  simp only [weeklyAverage, hne, if_false, hsort, List.getLastD_cons, List.getLastD_nil,
    hd1, hd2, hte]
  norm_num [max_def]

/-! ## C8: CSV export round trip

Step lemmas for the CSV reader, one per transition of its state machine. -/

lemma csvP_nil (b : Bool) (f : List Char) (r : List String) (acc : List (List String)) :
    csvParseAux [] b f r acc = acc ++ [r ++ [String.mk f]] := by
  simp [csvParseAux]

lemma csvP_open (cs : List Char) (f : List Char) (r : List String) (acc : List (List String)) :
    csvParseAux (dq :: cs) false f r acc = csvParseAux cs true f r acc := by
  simp [csvParseAux]

lemma csvP_comma (cs : List Char) (f : List Char) (r : List String) (acc : List (List String)) :
    csvParseAux (',' :: cs) false f r acc =
      csvParseAux cs false [] (r ++ [String.mk f]) acc := by
  have h1 : (',' : Char) ≠ dq := by decide
  simp [csvParseAux, h1]

lemma csvP_nl (cs : List Char) (f : List Char) (r : List String) (acc : List (List String)) :
    csvParseAux (nl :: cs) false f r acc =
      csvParseAux cs false [] [] (acc ++ [r ++ [String.mk f]]) := by
  have h1 : nl ≠ dq := by decide
  have h2 : nl ≠ ',' := by decide
  simp [csvParseAux, h1, h2]

lemma csvP_other (c : Char) (hc : CleanChar c) (cs : List Char) (f : List Char)
    (r : List String) (acc : List (List String)) :
    csvParseAux (c :: cs) false f r acc = csvParseAux cs false (f ++ [c]) r acc := by
  obtain ⟨h1, h2, h3⟩ := hc
  simp [csvParseAux, h1, h2, h3]

lemma csvP_inq_other (c : Char) (hc : c ≠ dq) (cs : List Char) (f : List Char)
    (r : List String) (acc : List (List String)) :
    csvParseAux (c :: cs) true f r acc = csvParseAux cs true (f ++ [c]) r acc := by
  cases cs with
  | nil => simp [csvParseAux, hc]
  | cons c2 cs2 => simp [csvParseAux, hc]

lemma csvP_inq_esc (cs : List Char) (f : List Char) (r : List String)
    (acc : List (List String)) :
    csvParseAux (dq :: dq :: cs) true f r acc = csvParseAux cs true (f ++ [dq]) r acc := by
  simp [csvParseAux]

lemma csvP_inq_close (c : Char) (hc : c ≠ dq) (cs : List Char) (f : List Char)
    (r : List String) (acc : List (List String)) :
    csvParseAux (dq :: c :: cs) true f r acc = csvParseAux (c :: cs) false f r acc := by
  simp [csvParseAux, hc]

lemma csvP_inq_close_nil (f : List Char) (r : List String) (acc : List (List String)) :
    csvParseAux [dq] true f r acc = acc ++ [r ++ [String.mk f]] := by
  simp [csvParseAux]

/-- Reading a run of clean characters outside quotes accumulates them into the
current field. -/
lemma csvP_clean_run : ∀ (s : List Char), (∀ c ∈ s, CleanChar c) →
    ∀ (cs : List Char) (f : List Char) (r : List String) (acc : List (List String)),
      csvParseAux (s ++ cs) false f r acc = csvParseAux cs false (f ++ s) r acc := by
  intro s
  induction s with
  | nil => intro _ cs f r acc; simp
  | cons c s ih =>
    intro hs cs f r acc
    rw [List.cons_append, csvP_other c (hs c (by simp))]
    rw [ih (fun x hx => hs x (by simp [hx]))]
    simp

/-- Reading the escaped image of a note inside quotes, followed by the closing
quote, recovers the note exactly and leaves the quoted section. -/
lemma csvP_escape_run : ∀ (s : List Char) (cs : List Char), cs.head? ≠ some dq →
    ∀ (f : List Char) (r : List String) (acc : List (List String)),
      csvParseAux (escapeChars s ++ dq :: cs) true f r acc =
        csvParseAux cs false (f ++ s) r acc := by
  intro s
  induction s with
  | nil =>
    intro cs hcs f r acc
    cases cs with
    | nil =>
      rw [show escapeChars [] ++ dq :: ([] : List Char) = [dq] from rfl]
      rw [csvP_inq_close_nil, csvP_nil]
      simp
    | cons c cs2 =>
      have hc : c ≠ dq := by
        intro h
        exact hcs (by simp [h])
      rw [show escapeChars [] ++ dq :: c :: cs2 = dq :: c :: cs2 from rfl]
      rw [csvP_inq_close c hc]
      simp
  | cons x s ih =>
    intro cs hcs f r acc
    by_cases hx : x = dq
    · subst hx
      rw [show escapeChars (dq :: s) = dq :: dq :: escapeChars s by simp [escapeChars]]
      rw [List.cons_append, List.cons_append, csvP_inq_esc, ih cs hcs]
      simp
    · rw [show escapeChars (x :: s) = x :: escapeChars s by simp [escapeChars, hx]]
      rw [List.cons_append, csvP_inq_other x hx, ih cs hcs]
      simp

/-! Digit strings: the characters produced by the number writer, their
numeric value, and their length. -/

lemma digitChar_props (d : ℕ) (hd : d < 10) :
    (digitChar d).isDigit = true ∧ CleanChar (digitChar d) ∧ isWS (digitChar d) = false ∧
      digitChar d ≠ '-' ∧ (digitChar d).toNat - 48 = d := by
  interval_cases d <;> exact ⟨by decide, by decide, by decide, by decide, by decide⟩

lemma natToCharsAux_props : ∀ fuel n : ℕ, ∀ c ∈ natToCharsAux fuel n,
    c.isDigit = true ∧ CleanChar c ∧ isWS c = false ∧ c ≠ '-' := by
  intro fuel
  induction fuel with
  | zero => intro n c hc; simp [natToCharsAux] at hc
  | succ fuel ih =>
    intro n c hc
    by_cases hn : n = 0
    · simp [natToCharsAux, hn] at hc
    · simp only [natToCharsAux, if_neg hn] at hc
      rcases List.mem_append.1 hc with h | h
      · exact ih (n / 10) c h
      · have hc2 : c = digitChar (n % 10) := by simpa using h
        have hp := digitChar_props (n % 10) (Nat.mod_lt _ (by norm_num))
        rw [hc2]
        exact ⟨hp.1, hp.2.1, hp.2.2.1, hp.2.2.2.1⟩

lemma natToChars_props (n : ℕ) : ∀ c ∈ natToChars n,
    c.isDigit = true ∧ CleanChar c ∧ isWS c = false ∧ c ≠ '-' := by
  intro c hc
  unfold natToChars at hc
  by_cases hn : n = 0
  · rw [if_pos hn] at hc
    have : c = '0' := by simpa using hc
    rw [this]
    exact ⟨by decide, by decide, by decide, by decide⟩
  · rw [if_neg hn] at hc
    exact natToCharsAux_props n n c hc

lemma natToChars_ne_nil (n : ℕ) : natToChars n ≠ [] := by
  unfold natToChars
  by_cases hn : n = 0
  · simp [hn]
  · rw [if_neg hn]
    obtain ⟨fuel, rfl⟩ : ∃ f, n = f + 1 := ⟨n - 1, by omega⟩
    simp [natToCharsAux, hn]

lemma digitsToNat_snoc (a : List Char) (c : Char) :
    digitsToNat (a ++ [c]) = digitsToNat a * 10 + (c.toNat - 48) := by
  unfold digitsToNat
  rw [List.foldl_append]
  rfl

lemma digitsToNat_natToCharsAux : ∀ fuel n : ℕ, n ≤ fuel →
    digitsToNat (natToCharsAux fuel n) = n := by
  intro fuel
  induction fuel with
  | zero =>
    intro n h
    have : n = 0 := by omega
    simp [this, natToCharsAux, digitsToNat]
  | succ fuel ih =>
    intro n h
    by_cases hn : n = 0
    · simp [natToCharsAux, hn, digitsToNat]
    · have hdiv : n / 10 ≤ fuel := by
        have := Nat.div_lt_self (Nat.pos_of_ne_zero hn) (by norm_num : 1 < 10)
        omega
      rw [natToCharsAux, if_neg hn, digitsToNat_snoc, ih (n / 10) hdiv,
        (digitChar_props (n % 10) (Nat.mod_lt _ (by norm_num))).2.2.2.2]
      omega

lemma digitsToNat_natToChars (n : ℕ) : digitsToNat (natToChars n) = n := by
  unfold natToChars
  by_cases hn : n = 0
  · rw [if_pos hn, hn]
    decide
  · rw [if_neg hn]
    exact digitsToNat_natToCharsAux n n le_rfl

lemma digitsToNat_cons_zero (l : List Char) : digitsToNat ('0' :: l) = digitsToNat l := by
  have h0 : '0'.toNat - 48 = 0 := by decide
  show List.foldl _ (0 * 10 + ('0'.toNat - 48)) l = List.foldl _ 0 l
  rw [h0]

lemma digitsToNat_padZeros (k : ℕ) (cs : List Char) :
    digitsToNat (padZeros k cs) = digitsToNat cs := by
  unfold padZeros
  generalize k - cs.length = j
  induction j with
  | zero => simp
  | succ j ih =>
    rw [List.replicate_succ, List.cons_append, digitsToNat_cons_zero]
    exact ih

lemma padZeros_length (k : ℕ) (cs : List Char) (h : cs.length ≤ k) :
    (padZeros k cs).length = k := by
  simp [padZeros]
  omega

lemma padZeros_props (k : ℕ) (cs : List Char)
    (hcs : ∀ c ∈ cs, c.isDigit = true ∧ CleanChar c ∧ isWS c = false ∧ c ≠ '-') :
    ∀ c ∈ padZeros k cs, c.isDigit = true ∧ CleanChar c ∧ isWS c = false ∧ c ≠ '-' := by
  intro c hc
  rcases List.mem_append.1 hc with h | h
  · have : c = '0' := by
      have := List.eq_of_mem_replicate h
      exact this
    rw [this]
    exact ⟨by decide, by decide, by decide, by decide⟩
  · exact hcs c h

lemma natToCharsAux_length : ∀ fuel n k : ℕ, n ≤ fuel → n < 10 ^ k →
    (natToCharsAux fuel n).length ≤ k := by
  intro fuel
  induction fuel with
  | zero => intro n k _ _; simp [natToCharsAux]
  | succ fuel ih =>
    intro n k hle hlt
    by_cases hn : n = 0
    · simp [natToCharsAux, hn]
    · have hk : k ≠ 0 := by
        intro h0
        rw [h0, pow_zero] at hlt
        omega
      obtain ⟨k2, rfl⟩ : ∃ k2, k = k2 + 1 := ⟨k - 1, by omega⟩
      have h1 : n / 10 < 10 ^ k2 := by
        rw [Nat.div_lt_iff_lt_mul (by norm_num)]
        calc n < 10 ^ (k2 + 1) := hlt
          _ = 10 ^ k2 * 10 := by ring
      have h2 : n / 10 ≤ fuel := by
        have := Nat.div_lt_self (Nat.pos_of_ne_zero hn) (by norm_num : 1 < 10)
        omega
      rw [natToCharsAux, if_neg hn]
      have := ih (n / 10) k2 h2 h1
      simp only [List.length_append, List.length_cons, List.length_nil]
      omega

lemma natToChars_length (n k : ℕ) (hk : 1 ≤ k) (h : n < 10 ^ k) :
    (natToChars n).length ≤ k := by
  unfold natToChars
  by_cases hn : n = 0
  · simp [hn]
    omega
  · rw [if_neg hn]
    exact natToCharsAux_length n n k le_rfl h

/-! Parsing the produced numeral. -/

lemma take_drop_stop (ds : List Char) (hds : ∀ c ∈ ds, c.isDigit = true)
    (x : Char) (hx : x.isDigit = false) (xs : List Char) :
    (ds ++ x :: xs).takeWhile Char.isDigit = ds ∧
    (ds ++ x :: xs).dropWhile Char.isDigit = x :: xs := by
  induction ds with
  | nil => simp [List.takeWhile_cons, List.dropWhile_cons, hx]
  | cons d ds ih =>
    have hd : d.isDigit = true := hds d (by simp)
    have ih2 := ih (fun c hc => hds c (by simp [hc]))
    simp [List.takeWhile_cons, List.dropWhile_cons, hd, ih2.1, ih2.2]

lemma take_drop_all (ds : List Char) (hds : ∀ c ∈ ds, c.isDigit = true) :
    ds.takeWhile Char.isDigit = ds ∧ ds.dropWhile Char.isDigit = [] := by
  induction ds with
  | nil => simp
  | cons d ds ih =>
    have hd : d.isDigit = true := hds d (by simp)
    have ih2 := ih (fun c hc => hds c (by simp [hc]))
    simp [List.takeWhile_cons, List.dropWhile_cons, hd, ih2.1, ih2.2]

lemma parseUnsigned_digits (ds : List Char) (hds : ∀ c ∈ ds, c.isDigit = true)
    (hne : ds ≠ []) :
    parseUnsigned ds = some ((digitsToNat ds : ℕ) : ℚ) := by
  unfold parseUnsigned
  obtain ⟨h1, h2⟩ := take_drop_all ds hds
  rw [h2, h1]
  rw [if_neg hne]

lemma parseUnsigned_with_frac (I F : List Char) (hI : ∀ c ∈ I, c.isDigit = true)
    (hF : ∀ c ∈ F, c.isDigit = true) (hne : I ≠ []) :
    parseUnsigned (I ++ '.' :: F) =
      some ((digitsToNat I : ℚ) + (digitsToNat F : ℚ) / 10 ^ F.length) := by
  unfold parseUnsigned
  have hdot : ('.' : Char).isDigit = false := by decide
  obtain ⟨h1, h2⟩ := take_drop_stop I hI '.' hdot F
  rw [h2, h1]
  have hcond : ('.' : Char) = '.' ∧ F.all Char.isDigit = true ∧ (I ≠ [] ∨ F ≠ []) :=
    ⟨rfl, List.all_eq_true.2 (fun c hc => hF c hc), Or.inl hne⟩
  show (if ('.' : Char) = '.' ∧ F.all Char.isDigit = true ∧ (I ≠ [] ∨ F ≠ []) then
      some ((digitsToNat I : ℚ) + (digitsToNat F : ℚ) / 10 ^ F.length) else none) =
    some ((digitsToNat I : ℚ) + (digitsToNat F : ℚ) / 10 ^ F.length)
  rw [if_pos hcond]

lemma trimChars_eq_self (cs : List Char) (h : ∀ c ∈ cs, isWS c = false) :
    trimChars cs = cs := by
  unfold trimChars
  have h1 : cs.dropWhile isWS = cs := by
    cases cs with
    | nil => rfl
    | cons c cs2 =>
      rw [List.dropWhile_cons, if_neg (by simp [h c (by simp)])]
  rw [h1]
  have h2 : cs.reverse.dropWhile isWS = cs.reverse := by
    cases hrev : cs.reverse with
    | nil => rfl
    | cons c cs2 =>
      have hc : c ∈ cs := by
        rw [← List.mem_reverse, hrev]
        simp
      rw [List.dropWhile_cons, if_neg (by simp [h c hc])]
  rw [h2, List.reverse_reverse]

/-! The decimal writer round trip. -/

lemma decExponent_den (q : ℚ) (hq : FiniteDec q) :
    (q * 10 ^ decExponent q).den = 1 := by
  unfold decExponent
  cases hfind : (List.range 21).find? (fun k => (q * 10 ^ k).den = 1) with
  | some k0 =>
    have := List.find?_some hfind
    simpa using this
  | none =>
    simpa using hq

lemma decChars_props (q : ℚ) :
    ∀ c ∈ decChars q, CleanChar c ∧ isWS c = false := by
  intro c hc
  unfold decChars at hc
  rcases List.mem_append.1 hc with h | h
  · by_cases hneg : (q * 10 ^ decExponent q).num < 0
    · rw [if_pos hneg] at h
      have : c = '-' := by simpa using h
      rw [this]
      exact ⟨by decide, by decide⟩
    · rw [if_neg hneg] at h
      simp at h
  · by_cases hk : decExponent q = 0
    · rw [if_pos hk] at h
      have := natToChars_props _ c h
      exact ⟨this.2.1, this.2.2.1⟩
    · rw [if_neg hk] at h
      rcases List.mem_append.1 h with h2 | h2
      · have := natToChars_props _ c h2
        exact ⟨this.2.1, this.2.2.1⟩
      · rcases List.mem_cons.1 h2 with h3 | h3
        · rw [h3]
          exact ⟨by decide, by decide⟩
        · have := padZeros_props _ _ (natToChars_props _) c h3
          exact ⟨this.2.1, this.2.2.1⟩

lemma decChars_parse_abs (q : ℚ) :
    parseUnsigned (natToChars ((q * 10 ^ decExponent q).num.natAbs / 10 ^ decExponent q) ++
        (if decExponent q = 0 then ([] : List Char) else
          '.' :: padZeros (decExponent q)
            (natToChars ((q * 10 ^ decExponent q).num.natAbs % 10 ^ decExponent q)))) =
      some (((q * 10 ^ decExponent q).num.natAbs : ℚ) / 10 ^ decExponent q) := by
  set k := decExponent q with hkdef
  set n := (q * 10 ^ k).num.natAbs with hndef
  by_cases hk : k = 0
  · rw [if_pos hk]
    rw [List.append_nil]
    rw [parseUnsigned_digits (natToChars (n / 10 ^ k)) (fun c hc => (natToChars_props _ c hc).1)
      (natToChars_ne_nil _), digitsToNat_natToChars]
    rw [hk]
    norm_num
  · rw [if_neg hk]
    have hflt : n % 10 ^ k < 10 ^ k := Nat.mod_lt _ (by positivity)
    have hlen : (natToChars (n % 10 ^ k)).length ≤ k :=
      natToChars_length _ k (by omega) hflt
    rw [parseUnsigned_with_frac _ _ (fun c hc => (natToChars_props _ c hc).1)
      (fun c hc => (padZeros_props _ _ (natToChars_props _) c hc).1)
      (natToChars_ne_nil _)]
    rw [digitsToNat_natToChars, digitsToNat_padZeros, digitsToNat_natToChars,
      padZeros_length _ _ hlen]
    have hmod := Nat.div_add_mod n (10 ^ k)
    have hcast : (10 : ℚ) ^ k * ((n / 10 ^ k : ℕ) : ℚ) + ((n % 10 ^ k : ℕ) : ℚ) = (n : ℚ) := by
      exact_mod_cast congrArg (Nat.cast : ℕ → ℚ) hmod
    have hpow : (10 : ℚ) ^ k ≠ 0 := by positivity
    field_simp
    linarith [hcast]

/-- Parsing the printed number with `Number()` recovers the number exactly,
for every value with a finite decimal expansion (every form-entered value). -/
lemma jsStrToNumber_ratToDecimal (q : ℚ) (hq : FiniteDec q) :
    jsStrToNumber (ratToDecimal q) = some q := by
  have hden := decExponent_den q hq
  set k := decExponent q with hk
  set n := (q * 10 ^ k).num with hn
  have hqn : q * 10 ^ k = (n : ℚ) := by
    conv_lhs => rw [← Rat.num_div_den (q * 10 ^ k)]
    rw [hden, hn]
    simp
  have hpow : (10 : ℚ) ^ k ≠ 0 := by positivity
  have hq2 : q = (n : ℚ) / 10 ^ k := by
    rw [eq_div_iff hpow]
    exact hqn
  have hbody : parseUnsigned (if k = 0 then natToChars n.natAbs
      else natToChars (n.natAbs / 10 ^ k) ++ '.' :: padZeros k (natToChars (n.natAbs % 10 ^ k))) =
      some ((n.natAbs : ℚ) / 10 ^ k) := by
    by_cases hk0 : k = 0
    · rw [if_pos hk0]
      rw [parseUnsigned_digits _ (fun c hc => (natToChars_props _ c hc).1)
        (natToChars_ne_nil _), digitsToNat_natToChars, hk0]
      norm_num
    · rw [if_neg hk0]
      have habs := decChars_parse_abs q
      rw [← hk, ← hn] at habs
      rw [if_neg hk0] at habs
      exact habs
  have hdec : decChars q = (if n < 0 then ['-'] else []) ++
      (if k = 0 then natToChars n.natAbs
       else natToChars (n.natAbs / 10 ^ k) ++ '.' :: padZeros k (natToChars (n.natAbs % 10 ^ k))) := by
    unfold decChars
    rw [← hk, ← hn]
  have htrim : trimChars (ratToDecimal q).data = decChars q := by
    have : (ratToDecimal q).data = decChars q := rfl
    rw [this]
    apply trimChars_eq_self
    intro c hc
    exact (decChars_props q c hc).2
  unfold jsStrToNumber
  rw [htrim, hdec]
  by_cases hneg : n < 0
  · rw [if_pos hneg]
    have hcons : (['-'] : List Char) ++
        (if k = 0 then natToChars n.natAbs
         else natToChars (n.natAbs / 10 ^ k) ++ '.' ::
           padZeros k (natToChars (n.natAbs % 10 ^ k))) =
        '-' :: (if k = 0 then natToChars n.natAbs
         else natToChars (n.natAbs / 10 ^ k) ++ '.' ::
           padZeros k (natToChars (n.natAbs % 10 ^ k))) := rfl
    rw [hcons]
    show (if ('-' : Char) = '-' then
        (parseUnsigned (if k = 0 then natToChars n.natAbs
          else natToChars (n.natAbs / 10 ^ k) ++ '.' ::
            padZeros k (natToChars (n.natAbs % 10 ^ k)))).map Neg.neg
      else _) = some q
    rw [if_pos rfl, hbody]
    have habs2 : (n.natAbs : ℚ) = -(n : ℚ) := by
      rw [Int.cast_natAbs, abs_of_neg hneg]
      push_cast
      ring
    show some (-((n.natAbs : ℚ) / 10 ^ k)) = some q
    rw [habs2, hq2]
    congr 1
    ring
  · rw [if_neg hneg]
    simp only [List.nil_append]
    obtain ⟨c, cs, hcs⟩ := List.exists_cons_of_ne_nil
      (show (if k = 0 then natToChars n.natAbs
        else natToChars (n.natAbs / 10 ^ k) ++ '.' ::
          padZeros k (natToChars (n.natAbs % 10 ^ k))) ≠ [] by
        by_cases hk0 : k = 0
        · rw [if_pos hk0]; exact natToChars_ne_nil _
        · rw [if_neg hk0]
          intro hnil
          exact natToChars_ne_nil _ (List.append_eq_nil.1 hnil).1)
    have hcne : c ≠ '-' := by
      have hc : c ∈ (if k = 0 then natToChars n.natAbs
          else natToChars (n.natAbs / 10 ^ k) ++ '.' ::
            padZeros k (natToChars (n.natAbs % 10 ^ k))) := by
        rw [hcs]; simp
      by_cases hk0 : k = 0
      · rw [if_pos hk0] at hc
        exact (natToChars_props _ c hc).2.2.2
      · rw [if_neg hk0] at hc
        rcases List.mem_append.1 hc with h | h
        · exact (natToChars_props _ c h).2.2.2
        · rcases List.mem_cons.1 h with h2 | h2
          · rw [h2]; decide
          · exact (padZeros_props _ _ (natToChars_props _) c h2).2.2.2
    rw [hcs]
    show (if c = '-' then (parseUnsigned cs).map Neg.neg else parseUnsigned (c :: cs)) = some q
    rw [if_neg hcne, ← hcs, hbody]
    have habs2 : (n.natAbs : ℚ) = (n : ℚ) := by
      rw [Int.cast_natAbs, abs_of_nonneg (not_lt.1 hneg)]
    rw [habs2, ← hq2]

/-- The tail of a row join never starts with a double quote. -/
lemma sepTail_head_ne_dq (rows : List String) : (sepTail rows).head? ≠ some dq := by
  cases rows with
  | nil => simp [sepTail]
  | cons r rs =>
    have : nl ≠ dq := by decide
    simp [sepTail, this]

/-- Reading the joined data rows from the state just after a field has been
completed: each row is recovered as its date, printed hours and note. -/
lemma csvP_rows : ∀ (entries : List Entry), (∀ e ∈ entries, CleanStr e.date) →
    ∀ (pend : List String) (f : List Char) (acc : List (List String)),
      csvParseAux (sepTail (entries.map csvRow)) false f pend acc =
        acc ++ [pend ++ [String.mk f]] ++
          entries.map (fun e => [e.date, ratToDecimal e.hours, e.note]) := by
  intro entries
  induction entries with
  | nil =>
    intro _ pend f acc
    rw [show sepTail (([] : List Entry).map csvRow) = [] from rfl, csvP_nil]
    simp
  | cons e rest ih =>
    intro hclean pend f acc
    rw [show sepTail ((e :: rest).map csvRow) =
      nl :: (rowChars e ++ sepTail (rest.map csvRow)) from rfl]
    rw [csvP_nl]
    rw [show rowChars e ++ sepTail (rest.map csvRow) =
      e.date.data ++ (',' :: (decChars e.hours ++ (',' :: (dq ::
        (escapeChars e.note.data ++ (dq :: sepTail (rest.map csvRow))))))) by
      simp [rowChars, List.append_assoc]]
    rw [csvP_clean_run e.date.data (hclean e (by simp))]
    rw [csvP_comma]
    rw [csvP_clean_run (decChars e.hours) (fun c hc => (decChars_props e.hours c hc).1)]
    rw [csvP_comma]
    rw [csvP_open]
    rw [csvP_escape_run e.note.data (sepTail (rest.map csvRow)) (sepTail_head_ne_dq _)]
    rw [ih (fun x hx => hclean x (by simp [hx]))]
    have hmk : ∀ s : String, String.mk s.data = s := fun s => rfl
    simp [hmk, ratToDecimal]

/-- Claim C8: the exported CSV text is the header `date,hours,note` followed
by one row per entry in store order, the note always quoted with embedded
quotes doubled; reading the text back yields exactly the header fields and
each entry's `(date, printed hours, note)`, and parsing the printed hours
recovers the exact hours value.  The hypotheses state the data domain: dates
are ISO strings (no comma, quote or newline) and hours are form-entered
numbers (finite decimal expansions). -/
theorem exportCSV_roundTrip (entries : List Entry)
    (hdate : ∀ e ∈ entries, CleanStr e.date)
    (hfin : ∀ e ∈ entries, FiniteDec e.hours) :
    parseCSV (exportCSV entries) =
      ["date", "hours", "note"] ::
        entries.map (fun e => [e.date, ratToDecimal e.hours, e.note]) ∧
    ∀ e ∈ entries, jsStrToNumber (ratToDecimal e.hours) = some e.hours := by
  constructor
  · unfold parseCSV exportCSV
    rw [show (String.mk (joinNL ("date,hours,note" :: entries.map csvRow))).data =
      joinNL ("date,hours,note" :: entries.map csvRow) from rfl]
    rw [show joinNL ("date,hours,note" :: entries.map csvRow) =
      ("date,hours,note" : String).data ++ sepTail (entries.map csvRow) from rfl]
    rw [show ("date,hours,note" : String).data ++ sepTail (entries.map csvRow) =
      ['d', 'a', 't', 'e'] ++ (',' :: (['h', 'o', 'u', 'r', 's'] ++ (',' ::
        (['n', 'o', 't', 'e'] ++ sepTail (entries.map csvRow))))) from by
      rw [show ("date,hours,note" : String).data =
        ['d', 'a', 't', 'e', ',', 'h', 'o', 'u', 'r', 's', ',', 'n', 'o', 't', 'e'] by decide]
      rfl]
    rw [csvP_clean_run ['d', 'a', 't', 'e'] (by decide)]
    rw [csvP_comma]
    rw [csvP_clean_run ['h', 'o', 'u', 'r', 's'] (by decide)]
    rw [csvP_comma]
    rw [csvP_clean_run ['n', 'o', 't', 'e'] (by decide)]
    rw [csvP_rows entries hdate]
    have f1 : String.mk (([] : List Char) ++ ['d', 'a', 't', 'e']) = "date" := by decide
    have f2 : String.mk (([] : List Char) ++ ['h', 'o', 'u', 'r', 's']) = "hours" := by decide
    have f3 : String.mk (([] : List Char) ++ ['n', 'o', 't', 'e']) = "note" := by decide
    simp [f1, f2, f3]
  · intro e he
    exact jsStrToNumber_ratToDecimal e.hours (hfin e he)

/-- Witness for C8: a concrete two-entry store, one note containing embedded
double quotes, hours 2 and 7.25; the parse recovers the original tuples. -/
theorem exportCSV_roundTrip_witness :
    parseCSV (exportCSV csvWitnessEntries) =
      ["date", "hours", "note"] ::
        csvWitnessEntries.map (fun e => [e.date, ratToDecimal e.hours, e.note]) ∧
    ∀ e ∈ csvWitnessEntries, jsStrToNumber (ratToDecimal e.hours) = some e.hours := by
  have hdate : ∀ e ∈ csvWitnessEntries, CleanStr e.date := by decide
  have hfin : ∀ e ∈ csvWitnessEntries, FiniteDec e.hours := by
    intro e he
    rcases List.mem_cons.1 he with h | he2
    · rw [h]
      have h2 : FiniteDec (2 : ℚ) := by unfold FiniteDec; norm_num
      exact h2
    · rcases List.mem_cons.1 he2 with h | h3
      · rw [h]
        have h2 : FiniteDec (29 / 4 : ℚ) := by unfold FiniteDec; norm_num
        exact h2
      · simp at h3
  exact exportCSV_roundTrip csvWitnessEntries hdate hfin

end HoursTracker
